import Mathlib

/-!
Verification of the request-coordination and response-sanitization core of the
`perpo` VS Code extension (src/extension.ts), against its specification.

Strings are modelled as `List Char` (the sanitizer operates on JavaScript
strings character by character).  Each JavaScript regular expression used by
the source is of a restricted shape whose matching behaviour is deterministic;
each is translated into an explicit recursive function, with the derivation
documented next to the definition.
-/

abbrev Str := List Char

/-- Character constants that are awkward to write literally. -/
def apos : Char := Char.ofNat 39

def btick : Char := Char.ofNat 96

def dquote : Char := Char.ofNat 34

def braceL : Char := Char.ofNat 123

def braceR : Char := Char.ofNat 125

/-- JavaScript whitespace for `String.prototype.trim` and the regex class
`\s` (restricted to the code points that can appear in our development). -/
def isWsC (c : Char) : Bool :=
  c = ' ' || c = '\t' || c = '\n' || c = '\r' || c = Char.ofNat 11 || c = Char.ofNat 12

/-- Left trim: drop leading whitespace. -/
def ltrim (s : Str) : Str := s.dropWhile isWsC

/-- Right trim: drop trailing whitespace. -/
def rtrim (s : Str) : Str := (s.reverse.dropWhile isWsC).reverse

/-- JavaScript `String.prototype.trim`. -/
def jsTrim (s : Str) : Str := ltrim (rtrim s)

/-- First index (if any) at which `pat` occurs verbatim in `s`. -/
def findSub (pat : Str) : Str → Option Nat
  | [] => if pat.isPrefixOf ([] : Str) then some 0 else none
  | c :: rest =>
    if pat.isPrefixOf (c :: rest) then some 0
    else (findSub pat rest).map (· + 1)

/-- Boolean substring test (used for `String.prototype.includes`). -/
def containsSeq (pat : Str) : Str → Bool
  | [] => pat.isPrefixOf ([] : Str)
  | c :: rest => pat.isPrefixOf (c :: rest) || containsSeq pat rest

/-- First index (if any) at which `pat` occurs in `s` case-insensitively
(`pat` is given in lower case). -/
def findFrom (pat : Str) : Str → Option Nat
  | [] => if pat.isPrefixOf ([] : Str) then some 0 else none
  | c :: rest =>
    if pat.isPrefixOf ((c :: rest).map Char.toLower) then some 0
    else (findFrom pat rest).map (· + 1)

/-- The reasoning marker, lower case. -/
def thinkPat : Str := "<think>".data

/-- Model of `completion.replace(/<think>[\s\S]*$/gi, '')` — the regex
matches from the first case-insensitive occurrence of the marker to the end
of the string, so the replacement keeps exactly the text before that
occurrence. -/
def stripThink (s : Str) : Str :=
  match findFrom thinkPat s with
  | none => s
  | some i => s.take i

/-- The fence marker. -/
def fence3 : Str := [btick, btick, btick]

/-- Model of `replace(/^```[\s\S]*?\n?/, '')`.  The lazy star matches the
empty string and `\n?` then greedily takes a single newline if one follows
immediately, so the match is exactly the three backticks plus at most one
newline directly after them. -/
def dropLeadFence (s : Str) : Str :=
  if fence3.isPrefixOf s then
    if ['\n'].isPrefixOf (s.drop 3) then s.drop 4 else s.drop 3
  else s

/-- List `s` ends with `sfx`. -/
def listEndsWith (sfx s : Str) : Bool := sfx.reverse.isPrefixOf s.reverse

/-- Model of `replace(/\n?```$/, '')`: if the string ends with three
backticks they are removed together with a single directly preceding
newline, if present. -/
def dropTrailFence (s : Str) : Str :=
  if listEndsWith fence3 s then
    if listEndsWith ['\n'] (s.take (s.length - 3)) then
      (s.take (s.length - 3)).take ((s.take (s.length - 3)).length - 1)
    else s.take (s.length - 3)
  else s

/-- Length matched at the head of `s` by the first alternative of `alts`
that is a verbatim prefix (for each source pattern the alternatives are
mutually exclusive at any one position, so the order is immaterial). -/
def matchAlts (alts : List Str) (s : Str) : Option Nat :=
  match alts with
  | [] => none
  | a :: rest => if a.isPrefixOf s then some a.length else matchAlts rest s

/-- Leftmost keyword occurrence: first index of `s` at which some
alternative matches, together with the matched length. -/
def findKw (alts : List Str) : Str → Option (Nat × Nat)
  | [] => none
  | c :: rest =>
    match matchAlts alts (c :: rest) with
    | some l => some (0, l)
    | none => (findKw alts rest).map (fun p => (p.1 + 1, p.2))

/-- Model of `replace(/^.*?KW.*?T/, '')` where `KW` is an alternation of
literal keywords and `T` a terminator character (`.` or `:`).  Since `.`
does not match a newline, the whole match lies on the first line; the lazy
stars pick the leftmost keyword occurrence and then the first terminator
after it.  If the leftmost keyword has no terminator after it on the line,
no later occurrence has one either, so the whole pattern fails. -/
def stripPat (alts : List Str) (term : Char) (s : Str) : Str :=
  match findKw alts (s.takeWhile (fun c => c ≠ '\n')) with
  | none => s
  | some (i, l) =>
    match ((s.takeWhile (fun c => c ≠ '\n')).drop (i + l)).findIdx? (fun c => c = term) with
    | none => s
    | some k => s.drop (i + l + k + 1)

/-- Alternation lists of the explanation patterns of `cleanCompletion`
(lines 473-483 of the source), in source order; every pattern's terminator
is a period. -/
def explAltsCC : List (List Str) :=
  [ ["Okay".data, "okay".data]
  , ["Let".data ++ [apos] ++ "s see".data, "let".data ++ [apos] ++ "s see".data]
  , ["The user".data, "the user".data]
  , ["The code".data, "the code".data]
  , ["The function".data, "the function".data]
  , ["I need to".data, "i need to".data]
  , ["We need".data, "we need".data]
  , ["Complete".data, "complete".data]
  , ["wants me to".data] ]

/-- Sequential application of the explanation-pattern replacements of
`cleanCompletion`. -/
def stripExpls (s : Str) : Str :=
  explAltsCC.foldl (fun acc alts => stripPat alts '.' acc) s

/-- Alternation lists of the explanation patterns of `cleanGeneratedCode`
(lines 437-443 of the source); every terminator is a colon.  The pattern
`[Hh]ere'?s` expands into four literal alternatives. -/
def explAltsGC : List (List Str) :=
  [ [ "Here".data ++ [apos] ++ "s".data, "here".data ++ [apos] ++ "s".data
    , "Heres".data, "heres".data ]
  , ["This code".data, "this code".data]
  , ["The above".data, "the above".data]
  , ["This will".data, "this will".data]
  , ["This function".data, "this function".data] ]

/-- Sequential application of the explanation-pattern replacements of
`cleanGeneratedCode`. -/
def stripExplsG (s : Str) : Str :=
  explAltsGC.foldl (fun acc alts => stripPat alts ':' acc) s

/-- JavaScript `\w` character class. -/
def isWordChar (c : Char) : Bool := c.isAlpha || c.isDigit || c = '_'

/-- First character of a JavaScript identifier as used by the source's
regexes (`[a-zA-Z_$]`). -/
def isIdentStart (c : Char) : Bool := c.isAlpha || c = '_' || c = '$'

/-- Subsequent identifier characters (`[a-zA-Z0-9_$]`). -/
def isIdentChar (c : Char) : Bool := c.isAlpha || c.isDigit || c = '_' || c = '$'

/-- Pattern `^[a-zA-Z_$][a-zA-Z0-9_$]*\s*X` for a terminator class `X`:
identifier head, greedy identifier tail, greedy whitespace, then a
character accepted by `termOk` (the identifier, whitespace and terminator
classes are pairwise disjoint, so the greedy scan never backtracks). -/
def patIdentThen (termOk : Char → Bool) (t : Str) : Bool :=
  match t with
  | [] => false
  | c :: u =>
    isIdentStart c &&
      (match ((u.dropWhile isIdentChar).dropWhile isWsC) with
       | [] => false
       | d :: _ => termOk d)

/-- Pattern `^KW\s+` — keyword then at least one whitespace character. -/
def patKwWs (kw : Str) (t : Str) : Bool :=
  kw.isPrefixOf t &&
    (match t.drop kw.length with
     | [] => false
     | d :: _ => isWsC d)

/-- Pattern `^KW\s*\(` — keyword, optional whitespace, opening paren. -/
def patKwParen (kw : Str) (t : Str) : Bool :=
  kw.isPrefixOf t &&
    (match (t.drop kw.length).dropWhile isWsC with
     | [] => false
     | d :: _ => d = '(')

/-- Pattern `^a\b` (and `^b\b`): the letter followed by a word boundary. -/
def patLetterB (letter : Char) (t : Str) : Bool :=
  match t with
  | [] => false
  | c :: u =>
    c = letter &&
      (match u with
       | [] => true
       | d :: _ => !isWordChar d)

/-- Head-character pattern (digits, quotes, brackets, operators). -/
def patHead (ok : Char → Bool) (t : Str) : Bool :=
  match t with
  | [] => false
  | c :: _ => ok c

/-- Disjunction of the sixteen `codePatterns` regexes of `looksLikeCode`
(lines 539-556 of the source), in source order. -/
def codePat (t : Str) : Bool :=
  patIdentThen (fun d => d = '=' || d = '+' || d = '-' || d = '*' || d = '/') t ||
  patKwWs "return".data t ||
  patIdentThen (fun d => d = '(') t ||
  patIdentThen (fun d => d = '.') t ||
  patKwParen "if".data t || patKwParen "for".data t || patKwParen "while".data t ||
  patKwParen "switch".data t || patKwParen "try".data t || patKwParen "catch".data t ||
  patKwWs "const".data t || patKwWs "let".data t || patKwWs "var".data t ||
  patKwWs "function".data t || patKwWs "class".data t ||
  patHead Char.isDigit t ||
  patHead (fun c => c = dquote || c = apos) t ||
  patHead (fun c => c = braceL || c = braceR || c = '[' || c = ']' || c = ';') t ||
  patLetterB 'a' t || patLetterB 'b' t ||
  patHead (fun c => c = '+' || c = '-' || c = '*' || c = '/') t

/-- Explanation keywords rejected by `looksLikeCode` (lines 526-529),
compared case-insensitively against the line. -/
def explKws : List Str :=
  [ "the user".data, "let".data ++ [apos] ++ "s see".data, "okay".data
  , "the code".data, "the function".data, "wants me to".data, "complete".data
  , "i need".data, "we need".data, "looking at".data ]

/-- Model of `looksLikeCode` (lines 522-559): empty lines are rejected,
lines containing an explanation keyword (case-insensitively) are rejected,
otherwise the line must match one of the code patterns. -/
def looksLikeCode (t : Str) : Bool :=
  if t = [] then false
  else if explKws.any (fun kw => containsSeq kw (t.map Char.toLower)) then false
  else codePat t

/-- Split a string into its lines (JavaScript `split('\n')`). -/
def splitLines : Str → List Str
  | [] => [[]]
  | c :: rest =>
    if c = '\n' then [] :: splitLines rest
    else
      match splitLines rest with
      | [] => [[c]]
      | l :: ls => (c :: l) :: ls

/-- Model of the code-line selection loop of `cleanCompletion` (lines
494-516): scan the lines in order and return the first one whose trimmed
form looks like code (trimmed, since the single collected line is joined
and trimmed); empty and non-code lines before it are skipped, and if no
line qualifies the result is empty.  The `else if (codeLines.length > 0)`
branch of the source is unreachable because the only push is immediately
followed by `break`. -/
def selectCode : List Str → Str
  | [] => []
  | l :: rest => if looksLikeCode (jsTrim l) then jsTrim l else selectCode rest

/-- Steps of `cleanCompletion` after the reasoning-trace strip (lines
459-519): empty check, fence strips, explanation strips, line selection. -/
def cleanCompletionCore (s1 : Str) : Str :=
  if jsTrim s1 = [] then []
  else selectCode (splitLines (stripExpls (dropTrailFence (dropLeadFence s1))))

/-- Model of `cleanCompletion` (lines 452-520). -/
def cleanCompletion (s : Str) : Str :=
  cleanCompletionCore (stripThink s)

/-- Model of `cleanGeneratedCode` (lines 424-450): reasoning-trace strip,
fence strips, explanation strips, final trim (no empty-string
short-circuit and no line selection in this variant). -/
def cleanGeneratedCode (s : Str) : Str :=
  jsTrim (stripExplsG (dropTrailFence (dropLeadFence (stripThink s))))

/-!
Context extractor (`getFullMethodContext`, lines 224-276).  A document is a
list of lines; the cursor is a line index `L` and a column.
-/

/-- Net brace count of a line: the source scans the line right to left,
incrementing on a closing brace and decrementing on an opening one; only
the net count is observable when the level is inspected after the line. -/
def lineBraces (l : Str) : Int := (l.count braceR : Int) - (l.count braceL : Int)

/-- The `^\s*\w+\s*\(` "method pattern" of line 249: optional whitespace,
at least one word character, optional whitespace, an opening parenthesis
(the three classes are pairwise disjoint, so greedy scanning is exact). -/
def methodPat (l : Str) : Bool :=
  match l.dropWhile isWsC with
  | [] => false
  | c :: u =>
    isWordChar c &&
      (match (u.dropWhile isWordChar).dropWhile isWsC with
       | [] => false
       | d :: _ => d = '(')

/-- Declaration-line heuristic of lines 244-250. -/
def declHeuristic (l : Str) : Bool :=
  containsSeq "function ".data l || containsSeq "const ".data l ||
  containsSeq "let ".data l || containsSeq "var ".data l || methodPat l

/-- The backward scan of lines 234-258, descending from line `i` with
running brace level `lvl`.  Per iteration: add the line's net braces, test
the declaration heuristic (returning the line index when it matches at
level ≤ 0), then stop when `i < L - 20` (an integer comparison in the
source, written here as `i + 20 < L`). -/
def scanDecl (doc : List Str) (L : Nat) : Nat → Int → Option Nat
  | 0, lvl =>
    let line := doc.getD 0 []
    let lvl2 := lvl + lineBraces line
    if lvl2 ≤ 0 ∧ declHeuristic line = true then some 0 else none
  | j + 1, lvl =>
    let line := doc.getD (j + 1) []
    let lvl2 := lvl + lineBraces line
    if lvl2 ≤ 0 ∧ declHeuristic line = true then some (j + 1)
    else if j + 21 < L then none
    else scanDecl doc L j lvl2

/-- Start line of the extracted context: the scan result when a
declaration was found, otherwise `Math.max(0, L - 15)` (which is `L - 15`
in truncated natural subtraction). -/
def contextStartOf (doc : List Str) (L : Nat) : Nat :=
  match scanDecl doc L L 0 with
  | some s => s
  | none => L - 15

/-- Join lines with newlines (inverse of `split('\n')`). -/
def joinNL : List Str → Str
  | [] => []
  | [l] => l
  | l :: ls => l ++ '\n' :: joinNL ls

/-- Model of `getFullMethodContext`: the lines from the context start
through the cursor line, the cursor line truncated at the cursor column. -/
def getFullMethodContext (doc : List Str) (L col : Nat) : Str :=
  let start := contextStartOf doc L
  joinNL ((List.range (L + 1 - start)).map (fun k =>
    if start + k = L then (doc.getD (start + k) []).take col
    else doc.getD (start + k) []))

/-!
Prompt-trigger detection (`isPromptBasedGeneration`, lines 108-112) and
intent extraction (`handlePromptGeneration`, lines 124-133).
-/

/-- Model of `isPromptBasedGeneration`: the trimmed prefix starts with
`"// "` and has length greater than 3. -/
def isPromptBasedGeneration (lp : Str) : Bool :=
  let t := jsTrim lp
  ("// ".data.isPrefixOf t) && decide (3 < t.length)

/-- Model of `prefix.match(/\/\/\s*(.+)/)` followed by `[1].trim()`: the
regex finds the leftmost `//`, greedily skips whitespace, and captures the
following run of non-newline characters.  When everything after the
whitespace skip is empty the regex can still match by backtracking into
`\s*`, but the captured group is then pure whitespace and trims to the
empty string — which is exactly what the formula below yields, since the
inner list is empty in that case.  When no `//` exists (or `//` sits at
the very end) there is no match and the handler returns null, modelled as
the empty intent. -/
def extractPrompt (lp : Str) : Str :=
  match findSub "//".data lp with
  | none => []
  | some i =>
    jsTrim (((lp.drop (i + 2)).dropWhile isWsC).takeWhile (fun c => c ≠ '\n'))

/-!
Request coordinator (`PerplexityCompletionProvider`, lines 12-106 and
172-222).  The mutable provider state is modelled explicitly; promise
resolutions, dispatches to the Suggestion Client (`getCompletion`) and
prompt-mode handling are recorded in ghost logs.  Requests and timers are
identified by generation counters (the source uses reference identity of
the stored resolve function and the timer handle; both are fresh objects
per call, so counters model them faithfully).  The ghost field `live`
holds the requests whose promise has been created but not yet resolved.
-/

structure DebInput where
  reqId : Nat
  tokId : Nat
deriving DecidableEq, Repr

structure PState where
  cfgOk : Bool
  pendingResolve : Option Nat
  lastDebounceInput : Option DebInput
  debounceTimer : Option Nat
  nextReqId : Nat
  nextTimerId : Nat
  cancelledToks : List Nat
  inflight : List Nat
  resolvedLog : List (Nat × Option Nat)
  clientCalls : List Nat
  promptCalls : List Str
  live : List Nat
deriving Repr

/-- Events driving the coordinator: an editor callback with the current
line prefix and its cancellation token, expiry of an armed debounce timer,
completion of a dispatched client call (payload `none` models a null or
failed completion), and firing of a cancellation token. -/
inductive Ev where
  | provide (linePre : Str) (tokId : Nat)
  | fire (t : Nat)
  | complete (r : Nat) (v : Option Nat)
  | cancel (tokId : Nat)

/-- Resolve request `r`'s promise with value `v`. -/
def resolveWith (s : PState) (r : Nat) (v : Option Nat) : PState :=
  { s with resolvedLog := s.resolvedLog ++ [(r, v)], live := s.live.erase r }

/-- One step of the coordinator.

* `provide`: lines 35-106.  With configuration missing the call returns
  null immediately (line 44).  A prompt-trigger prefix is handled at once
  by `handlePromptGeneration` (lines 53-56), which never touches the
  debounce state.  Otherwise the previous pending resolve, if any, is
  resolved with null, the new request installs itself, and the timer is
  re-armed (lines 59-69).
* `fire`: the timer callback (lines 72-104).  A cleared or superseded
  timer never fires, so a stale timer id is a no-op.  The defensive
  "no pending resolve" path skips.  Otherwise the current identity is
  captured; a cancelled token makes `getCompletionWithDebounce` return
  null synchronously (lines 179-182) — the identity still matches, so the
  request resolves with null — and a live token dispatches to the
  Suggestion Client, leaving the request pending until completion.
* `complete`: the continuation after `await` (lines 83-103).  The result
  is delivered only if the captured identity still equals the current
  pending resolve; otherwise it is discarded silently.
* `cancel`: the source installs no cancellation listener, so firing a
  token only changes the token's state. -/
def step (s : PState) (e : Ev) : PState :=
  match e with
  | .cancel tok => { s with cancelledToks := tok :: s.cancelledToks }
  | .provide lp tok =>
    if s.cfgOk = false then s
    else if isPromptBasedGeneration lp then
      if tok ∈ s.cancelledToks then s
      else { s with promptCalls := s.promptCalls ++ [extractPrompt lp] }
    else
      let r := s.nextReqId
      let s1 :=
        match s.pendingResolve with
        | some p => resolveWith s p none
        | none => s
      { s1 with
        pendingResolve := some r
        lastDebounceInput := some ⟨r, tok⟩
        debounceTimer := some s.nextTimerId
        nextReqId := r + 1
        nextTimerId := s.nextTimerId + 1
        live := s1.live ++ [r] }
  | .fire t =>
    if s.debounceTimer = some t then
      let s0 := { s with debounceTimer := none }
      match s.pendingResolve, s.lastDebounceInput with
      | some cur, some inp =>
        if inp.tokId ∈ s.cancelledToks then
          { resolveWith s0 cur none with
              pendingResolve := none, lastDebounceInput := none }
        else
          { s0 with
              inflight := s0.inflight ++ [cur]
              clientCalls := s0.clientCalls ++ [cur] }
      | _, _ => s0
    else s
  | .complete r v =>
    if r ∈ s.inflight then
      let s0 := { s with inflight := s.inflight.erase r }
      if s0.pendingResolve = some r then
        { resolveWith s0 r v with
            pendingResolve := none, lastDebounceInput := none }
      else s0
    else s

/-- Initial provider state (fields in declaration order), with a valid
configuration. -/
def initState : PState :=
  { cfgOk := true, pendingResolve := none, lastDebounceInput := none
  , debounceTimer := none, nextReqId := 0, nextTimerId := 0
  , cancelledToks := [], inflight := [], resolvedLog := []
  , clientCalls := [], promptCalls := [], live := [] }

/-- Run a sequence of events. -/
def runP (s : PState) (evs : List Ev) : PState := evs.foldl step s

/-!
Generic list facts used throughout.  `IsPre`, `IsSuf` and `Within` are the
prefix, suffix and contiguous-substring relations.
-/

def IsPre (p s : Str) : Prop := ∃ t, p ++ t = s

def IsSuf (x s : Str) : Prop := ∃ a, a ++ x = s

def Within (x s : Str) : Prop := ∃ a b, a ++ x ++ b = s

/-- Raw model reply of the C3 scenario. -/
def c3raw : Str := "<think>reasoning...</think>\n```js\nreturn a + b;\n```".data

/-- Raw model reply of the C9 scenario. -/
def c9raw : Str := "Here".data ++ [apos] ++ "s the code: const x = 5;".data

/-- Head of a list is not whitespace (vacuously true for the empty list). -/
def headNotWs (x : Str) : Bool :=
  match x with
  | [] => true
  | c :: _ => !isWsC c

/-- Last character of a list is not whitespace. -/
def lastNotWs (x : Str) : Bool := headNotWs x.reverse

/-- Concrete input refuting the unconditional idempotence of the inline
cleaner: the first pass keeps the line together with its trailing fence
marker, the second pass strips that marker. -/
def c8cex : Str := "a ```\nb".data

/-- Document refuting the 20-line bound of claim C6: a declaration line
sits exactly 21 lines above the cursor, with 21 non-matching lines in
between. -/
def c6doc : List Str := "function f() \x7b".data :: List.replicate 21 "x".data

/-- The C7 scenario line prefix. -/
def c7lp : Str := "// create a function that validates email addresses".data

/-- Invariant backing the at-most-once property: resolved request ids are
distinct, below the id counter, and disjoint from the current pending id. -/
def InvN (s : PState) : Prop :=
  (s.resolvedLog.map Prod.fst).Nodup ∧
  (∀ i ∈ s.resolvedLog.map Prod.fst, i < s.nextReqId) ∧
  (∀ p, s.pendingResolve = some p → p ∉ s.resolvedLog.map Prod.fst ∧ p < s.nextReqId)

/-- Invariant: the live (unresolved) promises are exactly the current
pending one. -/
def InvL (s : PState) : Prop := s.live = s.pendingResolve.toList

/-- Sequence of inline provide events for a token list. -/
def provides (lp : Str) (toks : List Nat) : List Ev :=
  toks.map (fun tk => Ev.provide lp tk)

theorem isPrefixOf_true_iff : ∀ (p s : Str), p.isPrefixOf s = true ↔ IsPre p s := by
  intro p
  induction p with
  | nil => intro s; simp [List.isPrefixOf, IsPre]
  | cons a as ih =>
    intro s
    cases s with
    | nil =>
      simp only [List.isPrefixOf, IsPre]
      constructor
      · intro h; cases h
      · rintro ⟨t, ht⟩; cases ht
    | cons b bs =>
      simp only [List.isPrefixOf, Bool.and_eq_true, beq_iff_eq, ih bs, IsPre]
      constructor
      · rintro ⟨rfl, t, rfl⟩; exact ⟨t, rfl⟩
      · rintro ⟨t, ht⟩
        injection ht with h1 h2
        exact ⟨h1, t, h2⟩

theorem IsPre_within {x s : Str} (h : IsPre x s) : Within x s := by
  obtain ⟨t, ht⟩ := h; exact ⟨[], t, ht⟩

theorem IsSuf_within {x s : Str} (h : IsSuf x s) : Within x s := by
  obtain ⟨a, ha⟩ := h; exact ⟨a, [], by simpa using ha⟩

theorem Within_trans {x y z : Str} (h1 : Within x y) (h2 : Within y z) : Within x z := by
  obtain ⟨a, b, rfl⟩ := h1
  obtain ⟨c, d, rfl⟩ := h2
  exact ⟨c ++ a, b ++ d, by simp⟩

theorem Within_mem {c : Char} {x s : Str} (h : Within x s) (hc : c ∈ x) : c ∈ s := by
  obtain ⟨a, b, rfl⟩ := h
  simp [hc]

theorem IsSuf_trans {x y z : Str} (h1 : IsSuf x y) (h2 : IsSuf y z) : IsSuf x z := by
  obtain ⟨a, rfl⟩ := h1
  obtain ⟨c, rfl⟩ := h2
  exact ⟨c ++ a, by simp⟩

theorem IsSuf_drop (s : Str) (n : Nat) : IsSuf (s.drop n) s :=
  ⟨s.take n, List.take_append_drop n s⟩

theorem IsPre_take (s : Str) (n : Nat) : IsPre (s.take n) s :=
  ⟨s.drop n, List.take_append_drop n s⟩

theorem IsPre_map {x s : Str} (f : Char → Char) (h : IsPre x s) :
    IsPre (x.map f) (s.map f) := by
  obtain ⟨t, rfl⟩ := h; exact ⟨t.map f, by simp⟩

theorem isPrefixOf_of_take {p x : Str} {j : Nat}
    (h : p.isPrefixOf (x.take j) = true) : p.isPrefixOf x = true := by
  rw [isPrefixOf_true_iff] at h ⊢
  obtain ⟨t, ht⟩ := h
  exact ⟨t ++ x.drop j, by rw [← List.append_assoc, ht, List.take_append_drop]⟩

/-!
Minimality and characterization lemmas for the case-insensitive search
`findFrom` (the reasoning-marker scan).
-/

theorem findFrom_min {pat : Str} :
    ∀ (s : Str) (i : Nat), findFrom pat s = some i →
      ∀ k, k < i → pat.isPrefixOf ((s.drop k).map Char.toLower) = false := by
  intro s
  induction s with
  | nil =>
    intro i h k hk
    simp only [findFrom] at h
    split at h
    · cases h; exact absurd hk (Nat.not_lt_zero k)
    · cases h
  | cons c rest ih =>
    intro i h k hk
    simp only [findFrom] at h
    split at h
    · cases h; exact absurd hk (Nat.not_lt_zero k)
    · rename_i hne
      cases hj : findFrom pat rest with
      | none => rw [hj] at h; cases h
      | some j =>
        rw [hj] at h
        have h' : j + 1 = i := by simpa using h
        cases k with
        | zero => simpa using Bool.eq_false_iff.mpr hne
        | succ k' => exact ih j hj k' (by omega)

theorem findFrom_none_intro {pat : Str} :
    ∀ (s : Str), (∀ k, pat.isPrefixOf ((s.drop k).map Char.toLower) = false) →
      findFrom pat s = none := by
  intro s
  induction s with
  | nil =>
    intro h
    have h0 := h 0
    simp only [List.drop_zero, List.map_nil] at h0
    simp [findFrom, h0]
  | cons c rest ih =>
    intro h
    have h0 := h 0
    simp only [List.drop_zero] at h0
    have hr : findFrom pat rest = none := ih (fun k => by simpa using h (k + 1))
    have hcond : ¬ (pat.isPrefixOf ((c :: rest).map Char.toLower) = true) := by
      rw [h0]; simp
    simp only [findFrom, if_neg hcond, hr]
    rfl

theorem thinkPat_not_pre_nil : thinkPat.isPrefixOf ([] : Str) = false := rfl

theorem findFrom_take_none {s : Str} {i : Nat}
    (h : findFrom thinkPat s = some i) : findFrom thinkPat (s.take i) = none := by
  apply findFrom_none_intro
  intro k
  by_cases hk : k < i
  · cases hb : thinkPat.isPrefixOf (((s.take i).drop k).map Char.toLower) with
    | false => rfl
    | true =>
      exfalso
      have h3 : (s.take i).drop k = (s.drop k).take (i - k) := by rw [List.drop_take]
      rw [h3, List.map_take] at hb
      have h5 := isPrefixOf_of_take hb
      have h6 := findFrom_min s i h k hk
      rw [h6] at h5
      cases h5
  · have hlen : (s.take i).drop k = [] := by
      apply List.drop_eq_nil_of_le
      calc (s.take i).length ≤ i := by simp
        _ ≤ k := by omega
    rw [hlen]
    exact thinkPat_not_pre_nil

theorem stripThink_of_none {s : Str} (h : findFrom thinkPat s = none) :
    stripThink s = s := by
  unfold stripThink; rw [h]

theorem stripThink_noOcc (s : Str) : findFrom thinkPat (stripThink s) = none := by
  unfold stripThink
  cases h : findFrom thinkPat s with
  | none => exact h
  | some i => exact findFrom_take_none h

/-!
Claims C3, C4 and C9 — the response sanitizer on concrete and general
inputs.
-/

/-- Claim C3, counterexample: on the scenario input the inline cleaner does
not return `"return a + b;"`.  The first case-insensitive occurrence of
`<think>` is at position 0, so the reasoning-trace strip discards the whole
reply (including the code after `</think>`), and the cleaner returns the
empty string. -/
theorem claim_C3_counterexample :
    cleanCompletion c3raw ≠ "return a + b;".data := by decide

/-- Claim C3, amended: for the raw reply
`"<think>reasoning...</think>\n```js\nreturn a + b;\n```"` the inline
cleaning function returns the empty string, because the policy of
discarding everything from the reasoning marker onward removes the entire
reply. -/
theorem claim_C3 : cleanCompletion c3raw = [] := by decide

/-- Claim C4: whenever the raw input contains the reasoning marker
`<think>` (case-insensitively, first occurrence at index `i`), both
cleaning functions produce the same output as on the input truncated just
before the marker — no text at or after the marker can influence (or
appear in) the output. -/
theorem claim_C4 (s : Str) (i : Nat) (h : findFrom thinkPat s = some i) :
    cleanCompletion s = cleanCompletion (s.take i) ∧
    cleanGeneratedCode s = cleanGeneratedCode (s.take i) := by
  have h1 : stripThink s = s.take i := by unfold stripThink; rw [h]
  have h2 : stripThink (s.take i) = s.take i :=
    stripThink_of_none (findFrom_take_none h)
  constructor
  · show cleanCompletionCore (stripThink s) = cleanCompletionCore (stripThink (s.take i))
    rw [h1, h2]
  · show jsTrim (stripExplsG (dropTrailFence (dropLeadFence (stripThink s)))) =
      jsTrim (stripExplsG (dropTrailFence (dropLeadFence (stripThink (s.take i)))))
    rw [h1, h2]

/-- Witness for C4 at a concrete input with text on both sides of the
marker. -/
theorem claim_C4_witness :
    findFrom thinkPat "x = 1;<think>y = 2;".data = some 6 ∧
    cleanCompletion "x = 1;<think>y = 2;".data =
      cleanCompletion ("x = 1;<think>y = 2;".data.take 6) ∧
    cleanGeneratedCode "x = 1;<think>y = 2;".data =
      cleanGeneratedCode ("x = 1;<think>y = 2;".data.take 6) := by
  refine ⟨by decide, ?_, ?_⟩
  · exact (claim_C4 "x = 1;<think>y = 2;".data 6 (by decide)).1
  · exact (claim_C4 "x = 1;<think>y = 2;".data 6 (by decide)).2

/-- Claim C9, counterexample: on the scenario input the inline cleaner does
not return `"const x = 5;"`.  None of `cleanCompletion`'s prose patterns
applies (each requires a period, and none of them matches "Here's"), and
the single line contains the explanation keyword "the code", so
`looksLikeCode` rejects it and code-line selection returns nothing. -/
theorem claim_C9_counterexample :
    cleanCompletion c9raw ≠ "const x = 5;".data := by decide

/-- Claim C9, amended: for the raw reply `"Here's the code: const x = 5;"`
the inline cleaning pipeline yields the empty string — the prose-prefix
strip leaves the line unchanged and code-line selection rejects it because
it contains an explanation keyword. -/
theorem claim_C9 : cleanCompletion c9raw = [] := by decide

/-!
Facts about `dropWhile`, `takeWhile` and the trim functions, used for the
idempotence analysis of the sanitizer.
-/

theorem dwHead {p : Char → Bool} :
    ∀ {l : Str} {c : Char} {t : Str}, l.dropWhile p = c :: t → p c = false := by
  intro l
  induction l with
  | nil => intro c t h; cases h
  | cons a l' ih =>
    intro c t h
    rw [List.dropWhile_cons] at h
    split at h
    · exact ih h
    · rename_i hp
      injection h with h1 _
      subst h1
      simpa using hp

theorem dwSuf (p : Char → Bool) (l : Str) : IsSuf (l.dropWhile p) l := by
  induction l with
  | nil => exact ⟨[], rfl⟩
  | cons a l' ih =>
    rw [List.dropWhile_cons]
    split
    · obtain ⟨w, hw⟩ := ih
      exact ⟨a :: w, by simp [hw]⟩
    · exact ⟨[], rfl⟩

theorem dwAllApp {p : Char → Bool} :
    ∀ {a : Str} (b : Str), (∀ c ∈ a, p c = true) → (a ++ b).dropWhile p = b.dropWhile p := by
  intro a
  induction a with
  | nil => intro b _; rfl
  | cons x a' ih =>
    intro b h
    have hx : p x = true := h x (by simp)
    simp only [List.cons_append, List.dropWhile_cons, hx, if_true]
    exact ih b (fun c hc => h c (by simp [hc]))

theorem twMemAll {p : Char → Bool} :
    ∀ {l : Str} {c : Char}, c ∈ l.takeWhile p → p c = true := by
  intro l
  induction l with
  | nil => intro c h; cases h
  | cons a l' ih =>
    intro c h
    rw [List.takeWhile_cons] at h
    split at h
    · rcases List.mem_cons.mp h with rfl | h'
      · assumption
      · exact ih h'
    · cases h

theorem headNotWs_dropWhile (l : Str) : headNotWs (l.dropWhile isWsC) = true := by
  cases h : l.dropWhile isWsC with
  | nil => rfl
  | cons c t => simp [headNotWs, dwHead h]

theorem dropWhile_eq_self_of_head {l : Str} (h : headNotWs l = true) :
    l.dropWhile isWsC = l := by
  cases l with
  | nil => rfl
  | cons c t =>
    simp only [headNotWs, Bool.not_eq_true'] at h
    simp [List.dropWhile_cons, h]

theorem ltrim_eq_self {x : Str} (h : headNotWs x = true) : ltrim x = x :=
  dropWhile_eq_self_of_head h

theorem headNotWs_ltrim (x : Str) : headNotWs (ltrim x) = true :=
  headNotWs_dropWhile x

theorem rtrim_eq_self {x : Str} (h : lastNotWs x = true) : rtrim x = x := by
  unfold rtrim
  rw [dropWhile_eq_self_of_head h, List.reverse_reverse]

theorem lastNotWs_rtrim (x : Str) : lastNotWs (rtrim x) = true := by
  unfold lastNotWs rtrim
  rw [List.reverse_reverse]
  exact headNotWs_dropWhile x.reverse

theorem headNotWs_app {y w : Str} (h : y ≠ []) : headNotWs (y ++ w) = headNotWs y := by
  cases y with
  | nil => exact absurd rfl h
  | cons c t => rfl

theorem lastNotWs_of_suf {x z : Str} (hs : IsSuf x z) (hx : x ≠ [])
    (hz : lastNotWs z = true) : lastNotWs x = true := by
  obtain ⟨a, rfl⟩ := hs
  unfold lastNotWs at hz ⊢
  rw [List.reverse_append] at hz
  rwa [headNotWs_app (by simpa using hx)] at hz

theorem ltrim_suf (x : Str) : IsSuf (ltrim x) x := dwSuf isWsC x

theorem rtrim_app_take (s : Str) : s = rtrim s ++ (s.reverse.takeWhile isWsC).reverse := by
  have h2 := List.takeWhile_append_dropWhile isWsC s.reverse
  calc s = s.reverse.reverse := by rw [List.reverse_reverse]
    _ = (s.reverse.takeWhile isWsC ++ s.reverse.dropWhile isWsC).reverse := by rw [h2]
    _ = (s.reverse.dropWhile isWsC).reverse ++ (s.reverse.takeWhile isWsC).reverse := by
        rw [List.reverse_append]
    _ = rtrim s ++ (s.reverse.takeWhile isWsC).reverse := rfl

theorem rtrim_pre (x : Str) : IsPre (rtrim x) x :=
  ⟨(x.reverse.takeWhile isWsC).reverse, (rtrim_app_take x).symm⟩

theorem jsTrim_idem (x : Str) : jsTrim (jsTrim x) = jsTrim x := by
  unfold jsTrim
  set z := rtrim x with hz
  have hlast : lastNotWs z = true := lastNotWs_rtrim x
  have h1 : rtrim (ltrim z) = ltrim z := by
    by_cases hnil : ltrim z = []
    · rw [hnil]; rfl
    · exact rtrim_eq_self (lastNotWs_of_suf (ltrim_suf z) hnil hlast)
  rw [h1, ltrim_eq_self (headNotWs_ltrim z)]

theorem jsTrim_within (s : Str) : Within (jsTrim s) s := by
  unfold jsTrim
  exact Within_trans (IsSuf_within (ltrim_suf (rtrim s))) (IsPre_within (rtrim_pre s))

theorem jsTrim_decomp (s : Str) :
    ∃ w w2, s = w ++ jsTrim s ++ w2 ∧ (∀ c ∈ w, isWsC c = true) ∧
      (∀ c ∈ w2, isWsC c = true) := by
  refine ⟨(rtrim s).takeWhile isWsC, (s.reverse.takeWhile isWsC).reverse, ?_, ?_, ?_⟩
  · have h1 : (rtrim s).takeWhile isWsC ++ jsTrim s = rtrim s :=
      List.takeWhile_append_dropWhile isWsC (rtrim s)
    rw [h1]
    exact rtrim_app_take s
  · exact fun c hc => twMemAll hc
  · exact fun c hc => twMemAll (List.mem_reverse.mp hc)

/-!
Facts about line splitting, code-line selection and the fence strips.
-/

theorem IsPre_refl (s : Str) : IsPre s s := ⟨[], by simp⟩

theorem IsSuf_refl (s : Str) : IsSuf s s := ⟨[], rfl⟩

theorem IsPre_trans {x y z : Str} (h1 : IsPre x y) (h2 : IsPre y z) : IsPre x z := by
  obtain ⟨t, rfl⟩ := h1
  obtain ⟨u, rfl⟩ := h2
  exact ⟨t ++ u, by simp⟩

theorem splitLines_struct :
    ∀ s : Str, ∃ hd tl, splitLines s = hd :: tl ∧ IsPre hd s ∧
      ∀ m ∈ tl, Within m s := by
  intro s
  induction s with
  | nil => exact ⟨[], [], rfl, ⟨[], rfl⟩, by simp⟩
  | cons c rest ih =>
    obtain ⟨hd, tl, hsp, hpre, hwit⟩ := ih
    by_cases hc : c = '\n'
    · subst hc
      refine ⟨[], splitLines rest, by simp [splitLines], ⟨'\n' :: rest, rfl⟩, ?_⟩
      intro m hm
      rw [hsp] at hm
      rcases List.mem_cons.mp hm with heq | hm'
      · subst heq
        obtain ⟨t, ht⟩ := hpre
        exact ⟨['\n'], t, by simp [ht]⟩
      · obtain ⟨a, b, hab⟩ := hwit m hm'
        exact ⟨'\n' :: a, b, by simp [hab]⟩
    · refine ⟨c :: hd, tl, ?_, ?_, ?_⟩
      · simp only [splitLines, if_neg hc, hsp]
      · obtain ⟨t, ht⟩ := hpre
        exact ⟨t, by simp [ht]⟩
      · intro m hm
        obtain ⟨a, b, hab⟩ := hwit m hm
        exact ⟨c :: a, b, by simp [hab]⟩

theorem splitLines_within {s : Str} {l : Str} (h : l ∈ splitLines s) : Within l s := by
  obtain ⟨hd, tl, hsp, hpre, hwit⟩ := splitLines_struct s
  rw [hsp] at h
  rcases List.mem_cons.mp h with heq | h'
  · subst heq; exact IsPre_within hpre
  · exact hwit l h'

theorem splitLines_noNL : ∀ (s : Str) (l : Str), l ∈ splitLines s → '\n' ∉ l := by
  intro s
  induction s with
  | nil =>
    intro l h
    simp only [splitLines, List.mem_singleton] at h
    subst h
    simp
  | cons c rest ih =>
    intro l h
    by_cases hc : c = '\n'
    · subst hc
      simp only [splitLines, if_true, eq_self_iff_true, List.mem_cons] at h
      rcases h with heq | h'
      · subst heq; simp
      · exact ih l h'
    · simp only [splitLines, if_neg hc] at h
      cases hsp : splitLines rest with
      | nil =>
        rw [hsp] at h
        simp only [List.mem_singleton] at h
        subst h
        intro hmem
        rcases List.mem_cons.mp hmem with h1 | h2
        · exact hc h1.symm
        · cases h2
      | cons hd2 tl2 =>
        rw [hsp] at h
        rcases List.mem_cons.mp h with heq | h'
        · subst heq
          intro hmem
          rcases List.mem_cons.mp hmem with h1 | h2
          · exact hc h1.symm
          · exact ih hd2 (by rw [hsp]; exact List.mem_cons_self hd2 tl2) h2
        · exact ih l (by rw [hsp]; exact List.mem_cons_of_mem hd2 h')

theorem splitLines_single {r : Str} (h : '\n' ∉ r) : splitLines r = [r] := by
  induction r with
  | nil => rfl
  | cons c rest ih =>
    have hc : ¬ c = '\n' := fun hcc => h (by simp [hcc])
    have hr : splitLines rest = [rest] := ih (fun hm => h (by simp [hm]))
    simp only [splitLines, if_neg hc, hr]

theorem selectCode_char :
    ∀ ls : List Str, selectCode ls = [] ∨
      ∃ l ∈ ls, selectCode ls = jsTrim l ∧ looksLikeCode (jsTrim l) = true := by
  intro ls
  induction ls with
  | nil => exact Or.inl rfl
  | cons l rest ih =>
    by_cases h : looksLikeCode (jsTrim l) = true
    · exact Or.inr ⟨l, by simp, by simp [selectCode, h], h⟩
    · have hsel : selectCode (l :: rest) = selectCode rest := by
        simp only [selectCode]
        rw [if_neg]
        simpa using h
      rcases ih with h1 | ⟨m, hm, he, hc⟩
      · exact Or.inl (hsel.trans h1)
      · exact Or.inr ⟨m, by simp [hm], hsel.trans he, hc⟩

/-!
The sanitizer's intermediate strips drop a prefix or take a prefix, so
their outputs are contiguous substrings of their inputs.
-/

theorem dropLeadFence_suf (s : Str) : IsSuf (dropLeadFence s) s := by
  unfold dropLeadFence
  split
  · split
    · exact IsSuf_drop s 4
    · exact IsSuf_drop s 3
  · exact IsSuf_refl s

theorem dropTrailFence_pre (s : Str) : IsPre (dropTrailFence s) s := by
  unfold dropTrailFence
  split
  · split
    · exact IsPre_trans (IsPre_take _ _) (IsPre_take s (s.length - 3))
    · exact IsPre_take s (s.length - 3)
  · exact IsPre_refl s

theorem stripPat_suf (alts : List Str) (term : Char) (s : Str) :
    IsSuf (stripPat alts term s) s := by
  unfold stripPat
  split
  · exact IsSuf_refl s
  · split
    · exact IsSuf_refl s
    · exact IsSuf_drop s _

theorem stripFold_suf (L : List (List Str)) (term : Char) :
    ∀ s : Str, IsSuf (L.foldl (fun acc alts => stripPat alts term acc) s) s := by
  induction L with
  | nil => intro s; exact IsSuf_refl s
  | cons alts L' ih =>
    intro s
    exact IsSuf_trans (ih (stripPat alts term s)) (stripPat_suf alts term s)

/-!
Keyword non-occurrence transfers from `looksLikeCode` to the explanation
strips, and the reasoning-marker non-occurrence transfers to substrings.
-/

theorem containsSeq_of_drop {p : Str} :
    ∀ {s : Str} {k : Nat}, p.isPrefixOf (s.drop k) = true → containsSeq p s = true := by
  intro s
  induction s with
  | nil => intro k h; simpa [containsSeq] using (by simpa using h)
  | cons c rest ih =>
    intro k h
    cases k with
    | zero =>
      simp only [List.drop_zero] at h
      simp [containsSeq, h]
    | succ k' =>
      simp only [List.drop_succ_cons] at h
      simp [containsSeq, ih h]

theorem matchAlts_none {alts : List Str} {s : Str}
    (h : ∀ a ∈ alts, a.isPrefixOf s = false) : matchAlts alts s = none := by
  induction alts with
  | nil => rfl
  | cons a rest ih =>
    simp only [matchAlts]
    rw [if_neg, ih (fun b hb => h b (by simp [hb]))]
    simp [h a (by simp)]

theorem findKw_none {alts : List Str} :
    ∀ {r : Str}, (∀ k, matchAlts alts (r.drop k) = none) → findKw alts r = none := by
  intro r
  induction r with
  | nil => intro _; rfl
  | cons c rest ih =>
    intro h
    have h0 := h 0
    simp only [List.drop_zero] at h0
    simp only [findKw, h0]
    rw [ih (fun k => by simpa using h (k + 1))]
    rfl

theorem stripPat_id {alts : List Str} {term : Char} {r : Str}
    (h : findKw alts (r.takeWhile (fun c => c ≠ '\n')) = none) :
    stripPat alts term r = r := by
  unfold stripPat
  rw [h]

theorem stripFold_id {L : List (List Str)} {term : Char} {r : Str}
    (h : ∀ alts ∈ L, stripPat alts term r = r) :
    L.foldl (fun acc alts => stripPat alts term acc) r = r := by
  induction L with
  | nil => rfl
  | cons alts L' ih =>
    simp only [List.foldl_cons]
    rw [h alts (by simp)]
    exact ih (fun a ha => h a (by simp [ha]))

theorem twAllEq {p : Char → Bool} :
    ∀ {l : Str}, (∀ c ∈ l, p c = true) → l.takeWhile p = l := by
  intro l
  induction l with
  | nil => intro _; rfl
  | cons c rest ih =>
    intro h
    rw [List.takeWhile_cons, if_pos (h c (by simp))]
    rw [ih (fun d hd => h d (by simp [hd]))]

theorem takeWhile_ne_nl {r : Str} (h : '\n' ∉ r) :
    r.takeWhile (fun c => c ≠ '\n') = r :=
  twAllEq (fun c hc => decide_eq_true (fun heq => h (heq ▸ hc)))

theorem drop_len_add : ∀ (a y : Str) (k : Nat), (a ++ y).drop (a.length + k) = y.drop k := by
  intro a
  induction a with
  | nil => intro y k; simp
  | cons c a' ih =>
    intro y k
    have h1 : (c :: a').length + k = (a'.length + k) + 1 := by
      simp [List.length_cons]; omega
    rw [h1]
    simpa using ih y k

theorem drop_app_le : ∀ (x b : Str) (k : Nat), k ≤ x.length →
    (x ++ b).drop k = x.drop k ++ b := by
  intro x
  induction x with
  | nil =>
    intro b k hk
    have hk0 : k = 0 := by simpa using hk
    subst hk0
    simp
  | cons c x' ih =>
    intro b k hk
    cases k with
    | zero => simp
    | succ k' =>
      simp only [List.cons_append, List.drop_succ_cons]
      exact ih b k' (by simpa using hk)

theorem IsPre_app {p m w : Str} (h : IsPre p m) : IsPre p (m ++ w) := by
  obtain ⟨t, rfl⟩ := h
  exact ⟨t ++ w, by simp⟩

theorem findFrom_none_elim {pat : Str} :
    ∀ {s : Str}, findFrom pat s = none →
      ∀ k, pat.isPrefixOf ((s.drop k).map Char.toLower) = false := by
  intro s
  induction s with
  | nil =>
    intro h k
    simp only [findFrom] at h
    split at h
    · cases h
    · rename_i hne
      simp only [List.drop_nil, List.map_nil]
      exact Bool.eq_false_iff.mpr (by simpa using hne)
  | cons c rest ih =>
    intro h k
    simp only [findFrom] at h
    split at h
    · cases h
    · rename_i hne
      cases hj : findFrom pat rest with
      | some j => rw [hj] at h; simp at h
      | none =>
        cases k with
        | zero => simpa using Bool.eq_false_iff.mpr hne
        | succ k' => simpa using ih hj k'

theorem noOcc_within {s x : Str} (hs : findFrom thinkPat s = none) (hw : Within x s) :
    findFrom thinkPat x = none := by
  apply findFrom_none_intro
  intro k
  cases hb : thinkPat.isPrefixOf ((x.drop k).map Char.toLower) with
  | false => rfl
  | true =>
    exfalso
    obtain ⟨a, b, rfl⟩ := hw
    have hmin := findFrom_none_elim hs (a.length + k)
    by_cases hk : k ≤ x.length
    · have heq2 : (a ++ x ++ b).drop (a.length + k) = x.drop k ++ b := by
        rw [List.append_assoc]
        rw [drop_len_add a (x ++ b) k]
        exact drop_app_le x b k hk
      rw [heq2] at hmin
      have h1 : IsPre thinkPat ((x.drop k).map Char.toLower) :=
        (isPrefixOf_true_iff _ _).mp hb
      have h2 : IsPre thinkPat ((x.drop k ++ b).map Char.toLower) := by
        rw [List.map_append]
        exact IsPre_app h1
      have h3 := (isPrefixOf_true_iff _ _).mpr h2
      rw [hmin] at h3
      cases h3
    · have hx0 : x.drop k = [] := List.drop_eq_nil_of_le (by omega)
      rw [hx0] at hb
      exact absurd hb (by decide)

/-- Each alternative of each `cleanCompletion` explanation pattern is
covered (after lower-casing) by one of the `looksLikeCode` explanation
keywords. -/
theorem cc_cover : ∀ alts ∈ explAltsCC, ∀ alt ∈ alts,
    ∃ kw ∈ explKws, kw.isPrefixOf (alt.map Char.toLower) = true := by decide

theorem no_matchAlts_of_kw {alts : List Str} {r : Str}
    (cover : ∀ alt ∈ alts, ∃ kw ∈ explKws, kw.isPrefixOf (alt.map Char.toLower) = true)
    (hr : ∀ kw ∈ explKws, containsSeq kw (r.map Char.toLower) = false) :
    ∀ k, matchAlts alts (r.drop k) = none := by
  intro k
  apply matchAlts_none
  intro a ha
  cases hpre : a.isPrefixOf (r.drop k) with
  | false => rfl
  | true =>
    exfalso
    obtain ⟨kw, hkwmem, hkpre⟩ := cover a ha
    have h1 : IsPre a (r.drop k) := (isPrefixOf_true_iff _ _).mp hpre
    have h2 : IsPre (a.map Char.toLower) ((r.drop k).map Char.toLower) :=
      IsPre_map Char.toLower h1
    have h3 : IsPre kw (a.map Char.toLower) := (isPrefixOf_true_iff _ _).mp hkpre
    have h4 : IsPre kw ((r.map Char.toLower).drop k) := by
      rw [← List.map_drop]
      exact IsPre_trans h3 h2
    have h5 := containsSeq_of_drop ((isPrefixOf_true_iff _ _).mpr h4)
    rw [hr kw hkwmem] at h5
    cases h5

theorem looksLikeCode_parts {t : Str} (h : looksLikeCode t = true) :
    t ≠ [] ∧ (∀ kw ∈ explKws, containsSeq kw (t.map Char.toLower) = false) ∧
      codePat t = true := by
  unfold looksLikeCode at h
  by_cases h1 : t = []
  · rw [if_pos h1] at h; cases h
  · rw [if_neg h1] at h
    cases h2 : explKws.any (fun kw => containsSeq kw (t.map Char.toLower)) with
    | true => rw [h2] at h; simp at h
    | false =>
      rw [h2] at h
      simp only [Bool.false_eq_true, if_false] at h
      refine ⟨h1, ?_, h⟩
      intro kw hkw
      have h3 := List.any_eq_false.mp h2
      exact Bool.eq_false_iff.mpr (h3 kw hkw)

theorem codePat_btick (u : Str) : codePat (btick :: u) = false := rfl

theorem looksLikeCode_not_btick {t : Str} (h : looksLikeCode t = true) :
    ∀ u, t ≠ btick :: u := by
  intro u hu
  have h2 := (looksLikeCode_parts h).2.2
  rw [hu, codePat_btick] at h2
  cases h2

theorem dropLeadFence_id {r : Str} (hh : ∀ u, r ≠ btick :: u) :
    dropLeadFence r = r := by
  unfold dropLeadFence
  rw [if_neg]
  intro hpre
  obtain ⟨t, ht⟩ := (isPrefixOf_true_iff _ _).mp hpre
  exact hh (btick :: btick :: t) (by rw [← ht]; rfl)

theorem dropTrailFence_id {r : Str} (h : listEndsWith fence3 r = false) :
    dropTrailFence r = r := by
  unfold dropTrailFence
  rw [if_neg]
  simp [h]

/-- Claim C8, counterexample: `cleanCompletion` is not idempotent on every
input.  On `"a ```\nb"` the first pass selects the line `"a ```"` (the
pattern `^a\b` classifies it as code and the trailing-fence regex does not
fire because the string does not end with the fence), while the second
pass strips the now-trailing fence and returns `"a"`. -/
theorem claim_C8_counterexample :
    cleanCompletion (cleanCompletion c8cex) ≠ cleanCompletion c8cex := by decide

/-- Claim C8, amended: `cleanCompletion` is idempotent on every input whose
cleaned output does not end with the three-backtick fence marker (the only
way a residual fence can survive the first pass).  An already-cleaned
result then passes through the pipeline unchanged. -/
theorem claim_C8 (x : Str)
    (hfence : listEndsWith fence3 (cleanCompletion x) = false) :
    cleanCompletion (cleanCompletion x) = cleanCompletion x := by
  by_cases hnil : cleanCompletion x = []
  · rw [hnil]; decide
  · have hx : cleanCompletion x = cleanCompletionCore (stripThink x) := rfl
    unfold cleanCompletionCore at hx
    by_cases hemp : jsTrim (stripThink x) = []
    · rw [if_pos hemp] at hx; exact absurd hx hnil
    · rw [if_neg hemp] at hx
      rcases selectCode_char
          (splitLines (stripExpls (dropTrailFence (dropLeadFence (stripThink x)))))
        with hsel | ⟨l, hlmem, hsel, hcode⟩
      · exact absurd (hx.trans hsel) hnil
      · have hr : cleanCompletion x = jsTrim l := hx.trans hsel
        have hLC : looksLikeCode (cleanCompletion x) = true := by rw [hr]; exact hcode
        obtain ⟨hrne, hkws, hcp⟩ := looksLikeCode_parts hLC
        have hnl_l : '\n' ∉ l := splitLines_noNL _ l hlmem
        have hnl : '\n' ∉ cleanCompletion x := by
          rw [hr]; intro hm; exact hnl_l (Within_mem (jsTrim_within l) hm)
        have hwithin : Within (cleanCompletion x) (stripThink x) := by
          rw [hr]
          refine Within_trans (jsTrim_within l) ?_
          refine Within_trans (splitLines_within hlmem) ?_
          refine Within_trans (IsSuf_within (stripFold_suf explAltsCC '.' _)) ?_
          refine Within_trans (IsPre_within (dropTrailFence_pre _)) ?_
          exact IsSuf_within (dropLeadFence_suf _)
        have hnothink : findFrom thinkPat (cleanCompletion x) = none :=
          noOcc_within (stripThink_noOcc x) hwithin
        have hjt : jsTrim (cleanCompletion x) = cleanCompletion x := by
          rw [hr]; exact jsTrim_idem l
        show cleanCompletionCore (stripThink (cleanCompletion x)) = cleanCompletion x
        rw [stripThink_of_none hnothink]
        unfold cleanCompletionCore
        rw [if_neg (by rw [hjt]; exact hnil)]
        rw [dropLeadFence_id (looksLikeCode_not_btick hLC)]
        rw [dropTrailFence_id hfence]
        have hstrip : stripExpls (cleanCompletion x) = cleanCompletion x := by
          unfold stripExpls
          apply stripFold_id
          intro alts halts
          apply stripPat_id
          apply findKw_none
          rw [takeWhile_ne_nl hnl]
          exact no_matchAlts_of_kw (cc_cover alts halts) hkws
        rw [hstrip, splitLines_single hnl]
        show selectCode [cleanCompletion x] = cleanCompletion x
        simp only [selectCode]
        rw [hjt, if_pos hLC]

/-- Witness for the amended C8 at a concrete stable input. -/
theorem claim_C8_witness :
    listEndsWith fence3 (cleanCompletion "const x = 5;".data) = false ∧
    cleanCompletion (cleanCompletion "const x = 5;".data) =
      cleanCompletion "const x = 5;".data :=
  ⟨by decide, claim_C8 "const x = 5;".data (by decide)⟩

/-!
Claim C6 — the backward declaration scan of `getFullMethodContext`.
-/

theorem scanDecl_bound (doc : List Str) (L : Nat) :
    ∀ (i : Nat) (lvl : Int) (j : Nat), scanDecl doc L i lvl = some j →
      j ≤ i ∧ (L ≤ j + 21 ∨ j = i) := by
  intro i
  induction i with
  | zero =>
    intro lvl j h
    simp only [scanDecl] at h
    split at h
    · cases h; exact ⟨Nat.le_refl 0, Or.inr rfl⟩
    · cases h
  | succ n ih =>
    intro lvl j h
    simp only [scanDecl] at h
    split at h
    · cases h; exact ⟨Nat.le_refl _, Or.inr rfl⟩
    · split at h
      · cases h
      · rename_i hbound
        obtain ⟨h1, h2⟩ := ih _ j h
        refine ⟨by omega, Or.inl ?_⟩
        rcases h2 with h2 | h2 <;> omega

/-- Claim C6, amended: the backward scan of `getFullMethodContext` examines
at most 21 lines before the cursor line (the `i < L - 20` break fires only
after line `L - 21` has already been processed), and when the scan finds no
declaration the context start falls back to `max(0, L - 15)`, written
`L - 15` in truncated subtraction. -/
theorem claim_C6 (doc : List Str) (L : Nat) :
    (∀ i, scanDecl doc L L 0 = some i → L ≤ i + 21 ∧ i ≤ L) ∧
    (scanDecl doc L L 0 = none → contextStartOf doc L = L - 15) := by
  constructor
  · intro i h
    obtain ⟨h1, h2⟩ := scanDecl_bound doc L L 0 i h
    rcases h2 with h2 | h2
    · exact ⟨h2, h1⟩
    · subst h2; exact ⟨by omega, h1⟩
  · intro h
    unfold contextStartOf
    rw [h]

/-- Claim C6, counterexample: with the cursor on line 21 of `c6doc`, no
line within 20 lines of the cursor matches the declaration heuristic, yet
the context start is 0 (the declaration on line `21 - 21` is found), not
the claimed fallback `max(0, 21 - 15) = 6` — the scan in fact examines 21
lines backward. -/
theorem claim_C6_counterexample :
    (∀ k ∈ List.range 21, declHeuristic (c6doc.getD (k + 1) []) = false) ∧
    contextStartOf c6doc 21 = 0 ∧ (0 : Nat) ≠ 21 - 15 := by decide

/-- Witness for the amended C6: the found-declaration bound at `c6doc`,
and the fallback on a document with no declaration at all. -/
theorem claim_C6_witness :
    (21 ≤ 0 + 21 ∧ 0 ≤ 21) ∧
    contextStartOf (List.replicate 22 "x".data) 21 = 21 - 15 :=
  ⟨(claim_C6 c6doc 21).1 0 (by decide),
   (claim_C6 (List.replicate 22 "x".data) 21).2 (by decide)⟩

/-!
Claim C7 — prompt-trigger detection and intent extraction.
-/

theorem dwStopApp {p : Char → Bool} :
    ∀ {a : Str} (b : Str), a.dropWhile p ≠ [] →
      (a ++ b).dropWhile p = a.dropWhile p ++ b := by
  intro a
  induction a with
  | nil => intro b h; exact absurd rfl h
  | cons x a' ih =>
    intro b h
    by_cases hx : p x = true
    · rw [List.dropWhile_cons_of_pos hx] at h ⊢
      rw [List.cons_append, List.dropWhile_cons_of_pos hx]
      exact ih b h
    · have hx' : p x = false := Bool.eq_false_iff.mpr hx
      rw [List.dropWhile_cons_of_neg hx] at h ⊢
      rw [List.cons_append, List.dropWhile_cons_of_neg hx]

theorem dropWhile_ne_nil_of_ex {p : Char → Bool} :
    ∀ {a : Str}, (∃ c ∈ a, p c = false) → a.dropWhile p ≠ [] := by
  intro a
  induction a with
  | nil => rintro ⟨c, hc, _⟩; cases hc
  | cons x a' ih =>
    rintro ⟨c, hc, hpc⟩
    by_cases hx : p x = true
    · rw [List.dropWhile_cons_of_pos hx]
      rcases List.mem_cons.mp hc with heq | hc'
      · subst heq; rw [hx] at hpc; cases hpc
      · exact ih ⟨c, hc', hpc⟩
    · rw [List.dropWhile_cons_of_neg hx]
      simp

theorem rtrim_app_of {a d : Str} (h : rtrim d ≠ []) : rtrim (a ++ d) = a ++ rtrim d := by
  unfold rtrim at h ⊢
  have hne : d.reverse.dropWhile isWsC ≠ [] := by
    intro h0; rw [h0] at h; exact h rfl
  rw [List.reverse_append, dwStopApp a.reverse hne, List.reverse_append,
    List.reverse_reverse]

theorem rtrim_app_all {a w2 : Str} (h : ∀ c ∈ w2, isWsC c = true) :
    rtrim (a ++ w2) = rtrim a := by
  unfold rtrim
  rw [List.reverse_append, dwAllApp a.reverse (fun c hc => h c (List.mem_reverse.mp hc))]

theorem ltrim_app_all {w b : Str} (h : ∀ c ∈ w, isWsC c = true) :
    ltrim (w ++ b) = ltrim b := dwAllApp b h

theorem jsTrim_app_ws {y w2 : Str} (h : ∀ c ∈ w2, isWsC c = true) :
    jsTrim (y ++ w2) = jsTrim y := by
  unfold jsTrim
  rw [rtrim_app_all h]

theorem rtrim_eq_nil_all {d : Str} (h : rtrim d = []) : ∀ c ∈ d, isWsC c = true := by
  intro c hc
  unfold rtrim at h
  have h2 : d.reverse.dropWhile isWsC = [] := by
    have := congrArg List.reverse h
    rwa [List.reverse_reverse] at this
  have h3 := List.dropWhile_eq_nil_iff.mp h2
  exact h3 c (List.mem_reverse.mpr hc)

theorem jsTrim_ltrim (u : Str) : jsTrim (ltrim u) = jsTrim u := by
  by_cases hd : rtrim (ltrim u) = []
  · have hall : ∀ c ∈ ltrim u, isWsC c = true := rtrim_eq_nil_all hd
    have hnil : ltrim u = [] := by
      cases h : ltrim u with
      | nil => rfl
      | cons c t =>
        have hns := headNotWs_ltrim u
        rw [h] at hns
        simp only [headNotWs, Bool.not_eq_true'] at hns
        rw [hall c (by rw [h]; simp)] at hns
        cases hns
    have huall : ∀ c ∈ u, isWsC c = true := by
      intro c hc
      by_contra hcc
      exact dropWhile_ne_nil_of_ex ⟨c, hc, Bool.eq_false_iff.mpr hcc⟩ hnil
    have h1 : jsTrim u = [] := by
      unfold jsTrim ltrim
      rw [show rtrim u = rtrim ([] ++ u) from rfl, rtrim_app_all huall]
      rfl
    rw [hnil, h1]
    rfl
  · have hdec : u.takeWhile isWsC ++ ltrim u = u :=
      List.takeWhile_append_dropWhile isWsC u
    have htw : ∀ c ∈ u.takeWhile isWsC, isWsC c = true := fun c hc => twMemAll hc
    calc jsTrim (ltrim u) = ltrim (rtrim (ltrim u)) := rfl
      _ = ltrim (u.takeWhile isWsC ++ rtrim (ltrim u)) := (ltrim_app_all htw).symm
      _ = ltrim (rtrim (u.takeWhile isWsC ++ ltrim u)) := by rw [rtrim_app_of hd]
      _ = ltrim (rtrim u) := by rw [hdec]
      _ = jsTrim u := rfl

theorem findSub_some_intro {pat : Str} :
    ∀ {s : Str} {i : Nat},
      (∀ k, k < i → pat.isPrefixOf (s.drop k) = false) →
      pat.isPrefixOf (s.drop i) = true → findSub pat s = some i := by
  intro s
  induction s with
  | nil =>
    intro i hmin hpre
    cases i with
    | zero =>
      simp only [List.drop_zero] at hpre
      simp [findSub, hpre]
    | succ i' =>
      have h0 := hmin 0 (Nat.succ_pos i')
      simp only [List.drop_zero] at h0
      simp only [List.drop_nil] at hpre
      exact absurd hpre (by rw [h0]; simp)
  | cons c rest ih =>
    intro i hmin hpre
    cases i with
    | zero =>
      simp only [List.drop_zero] at hpre
      simp [findSub, hpre]
    | succ i' =>
      have h0 := hmin 0 (Nat.succ_pos i')
      simp only [List.drop_zero] at h0
      have hrec := ih (fun k hk => by simpa using hmin (k + 1) (Nat.succ_lt_succ hk))
        (by simpa using hpre)
      simp only [findSub]
      rw [if_neg (by rw [h0]; simp), hrec]
      rfl

theorem trigger_struct {lp : Str} (h : isPromptBasedGeneration lp = true) :
    ∃ u, jsTrim lp = '/' :: '/' :: ' ' :: u ∧ ∃ c ∈ u, isWsC c = false := by
  unfold isPromptBasedGeneration at h
  rw [Bool.and_eq_true] at h
  obtain ⟨h1, h2⟩ := h
  have h3 : 3 < (jsTrim lp).length := of_decide_eq_true h2
  obtain ⟨u, hu⟩ := (isPrefixOf_true_iff _ _).mp h1
  refine ⟨u, by rw [← hu]; rfl, ?_⟩
  have hlen : u ≠ [] := by
    intro h0
    rw [h0] at hu
    rw [← hu] at h3
    simp at h3
  have hsufu : IsSuf u (jsTrim lp) := ⟨"// ".data, hu⟩
  have hjne : jsTrim lp ≠ [] := by rw [← hu]; simp
  have hlast : lastNotWs (jsTrim lp) = true :=
    lastNotWs_of_suf (ltrim_suf (rtrim lp)) hjne (lastNotWs_rtrim lp)
  have hlastu : lastNotWs u = true := lastNotWs_of_suf hsufu hlen hlast
  cases hrev : u.reverse with
  | nil => exact absurd (by simpa using congrArg List.reverse hrev) hlen
  | cons c r =>
    refine ⟨c, List.mem_reverse.mp (by rw [hrev]; simp), ?_⟩
    have h5 := hlastu
    unfold lastNotWs headNotWs at h5
    rw [hrev] at h5
    simpa using h5

/-- Claim C7: a line prefix triggers prompt-generation mode iff its
trimmed form starts with `"// "` followed by at least one more
non-whitespace character, and on detection the extracted intent is exactly
the text after the three-character comment marker, trimmed. -/
theorem claim_C7 (lp : Str) (hnl : '\n' ∉ lp) :
    (isPromptBasedGeneration lp = true ↔
      ("// ".data.isPrefixOf (jsTrim lp) = true ∧
        ∃ c ∈ (jsTrim lp).drop 3, isWsC c = false)) ∧
    (isPromptBasedGeneration lp = true →
      extractPrompt lp = jsTrim ((jsTrim lp).drop 3)) := by
  constructor
  · constructor
    · intro h
      obtain ⟨u, ht, hc⟩ := trigger_struct h
      constructor
      · exact (isPrefixOf_true_iff _ _).mpr ⟨u, by rw [ht]; rfl⟩
      · rw [ht]
        simpa using hc
    · rintro ⟨h1, c, hc, hcw⟩
      obtain ⟨u, hu⟩ := (isPrefixOf_true_iff _ _).mp h1
      have hlen : 3 < (jsTrim lp).length := by
        rw [← hu]
        have : u ≠ [] := by
          intro h0
          rw [← hu, h0] at hc
          simp at hc
        have : 0 < u.length := List.length_pos.mpr this
        simp
        omega
      unfold isPromptBasedGeneration
      rw [Bool.and_eq_true]
      exact ⟨h1, decide_eq_true hlen⟩
  · intro htr
    obtain ⟨u, ht, c0, hc0, hc0w⟩ := trigger_struct htr
    obtain ⟨w, w2, hdec, hw, hw2⟩ := jsTrim_decomp lp
    have hfind : findSub "//".data lp = some w.length := by
      apply findSub_some_intro
      · intro k hk
        cases hb : ("//".data.isPrefixOf (lp.drop k)) with
        | false => rfl
        | true =>
          exfalso
          obtain ⟨v, hv⟩ := (isPrefixOf_true_iff _ _).mp hb
          have hsplit : lp.drop k = w.drop k ++ (jsTrim lp ++ w2) := by
            conv_lhs => rw [hdec]
            rw [List.append_assoc]
            exact drop_app_le w (jsTrim lp ++ w2) k (Nat.le_of_lt hk)
          have hwk : w.drop k ≠ [] := by
            intro h0
            have := congrArg List.length h0
            simp at this
            omega
          cases hwd : w.drop k with
          | nil => exact hwk hwd
          | cons d ds =>
            have hd : d = '/' := by
              rw [hsplit, hwd] at hv
              have : ('/' :: '/' :: v : Str) = d :: (ds ++ (jsTrim lp ++ w2)) := by
                simpa using hv
              injection this with h1 _
              exact h1.symm
            have hdw : isWsC d = true := by
              apply hw
              have : d ∈ w.drop k := by rw [hwd]; simp
              exact Within_mem (IsSuf_within (IsSuf_drop w k)) this
            rw [hd] at hdw
            exact absurd hdw (by decide)
      · have hsplit : lp.drop w.length = jsTrim lp ++ w2 := by
          conv_lhs => rw [hdec]
          rw [List.append_assoc]
          simpa using drop_len_add w (jsTrim lp ++ w2) 0
        rw [hsplit, ht]
        rfl
    unfold extractPrompt
    rw [hfind]
    show jsTrim (((lp.drop (w.length + 2)).dropWhile isWsC).takeWhile (fun c => c ≠ '\n')) =
      jsTrim ((jsTrim lp).drop 3)
    have hdrop : lp.drop (w.length + 2) = ' ' :: (u ++ w2) := by
      have hsplit : lp.drop (w.length + 2) = (jsTrim lp ++ w2).drop 2 := by
        conv_lhs => rw [hdec]
        rw [List.append_assoc]
        exact drop_len_add w (jsTrim lp ++ w2) 2
      rw [hsplit, ht]
      rfl
    rw [hdrop]
    have hsp : isWsC ' ' = true := by decide
    rw [List.dropWhile_cons_of_pos hsp]
    have hne : u.dropWhile isWsC ≠ [] :=
      dropWhile_ne_nil_of_ex ⟨c0, hc0, hc0w⟩
    rw [dwStopApp w2 hne]
    have hmem_nl : '\n' ∉ u.dropWhile isWsC ++ w2 := by
      intro hm
      rcases List.mem_append.mp hm with hm1 | hm2
      · have h1 : '\n' ∈ u := Within_mem (IsSuf_within (dwSuf isWsC u)) hm1
        have h2 : '\n' ∈ jsTrim lp := by rw [ht]; simp [h1]
        exact hnl (Within_mem (jsTrim_within lp) h2)
      · exact hnl (by rw [hdec]; simp [hm2])
    rw [takeWhile_ne_nl hmem_nl]
    have h9 : jsTrim (u.dropWhile isWsC ++ w2) = jsTrim u := by
      rw [jsTrim_app_ws hw2]
      exact jsTrim_ltrim u
    rw [h9, ht]
    rfl

/-- Witness for C7 at the scenario input: the prefix triggers prompt mode
and the extracted intent is the expected string. -/
theorem claim_C7_witness :
    isPromptBasedGeneration c7lp = true ∧
    extractPrompt c7lp = jsTrim ((jsTrim c7lp).drop 3) ∧
    extractPrompt c7lp = "create a function that validates email addresses".data :=
  ⟨by decide, (claim_C7 c7lp (by decide)).2 (by decide), by decide⟩

/-!
Step equations for the coordinator, proved by destructuring the state so
that the definitional reductions go through.
-/

theorem provide_step (s : PState) (lp : Str) (tok : Nat)
    (hc : s.cfgOk = true) (hlp : isPromptBasedGeneration lp = false) :
    step s (.provide lp tok) =
      { cfgOk := s.cfgOk
      , pendingResolve := some s.nextReqId
      , lastDebounceInput := some ⟨s.nextReqId, tok⟩
      , debounceTimer := some s.nextTimerId
      , nextReqId := s.nextReqId + 1
      , nextTimerId := s.nextTimerId + 1
      , cancelledToks := s.cancelledToks
      , inflight := s.inflight
      , resolvedLog := s.resolvedLog ++
          (match s.pendingResolve with
           | some p => [(p, (none : Option Nat))]
           | none => [])
      , clientCalls := s.clientCalls
      , promptCalls := s.promptCalls
      , live := (match s.pendingResolve with
           | some p => s.live.erase p
           | none => s.live) ++ [s.nextReqId] } := by
  obtain ⟨cfg, pr, ldi, dt, nr, nt, ct, infl, log, cc, pc, lv⟩ := s
  subst hc
  cases pr <;> simp [step, resolveWith, hlp]

theorem fire_dispatch (s : PState) (t cur : Nat) (inp : DebInput)
    (ht : s.debounceTimer = some t) (hp : s.pendingResolve = some cur)
    (hi : s.lastDebounceInput = some inp) (hnc : inp.tokId ∉ s.cancelledToks) :
    step s (.fire t) =
      { s with debounceTimer := none
             , inflight := s.inflight ++ [cur]
             , clientCalls := s.clientCalls ++ [cur] } := by
  obtain ⟨cfg, pr, ldi, dt, nr, nt, ct, infl, log, cc, pc, lv⟩ := s
  simp only at ht hp hi
  subst ht hp hi
  simp [step, hnc]

theorem fire_stale (s : PState) (t2 : Nat) (h : ¬ s.debounceTimer = some t2) :
    step s (.fire t2) = s := by
  obtain ⟨cfg, pr, ldi, dt, nr, nt, ct, infl, log, cc, pc, lv⟩ := s
  simp only at h
  simp [step, h]

/-- Claim C10: a call whose line prefix triggers prompt-generation mode is
handled immediately by the prompt path and leaves the whole debounce state
(pending resolve, stored input, timer, timer counter, resolution log, live
set, client-call log) unchanged; when the configuration is valid and the
token not yet cancelled, the extracted intent is handed to the prompt
generator. -/
theorem claim_C10 (s : PState) (lp : Str) (tok : Nat)
    (hp : isPromptBasedGeneration lp = true) :
    (step s (.provide lp tok)).pendingResolve = s.pendingResolve ∧
    (step s (.provide lp tok)).lastDebounceInput = s.lastDebounceInput ∧
    (step s (.provide lp tok)).debounceTimer = s.debounceTimer ∧
    (step s (.provide lp tok)).nextTimerId = s.nextTimerId ∧
    (step s (.provide lp tok)).resolvedLog = s.resolvedLog ∧
    (step s (.provide lp tok)).live = s.live ∧
    (step s (.provide lp tok)).clientCalls = s.clientCalls ∧
    (s.cfgOk = true → tok ∉ s.cancelledToks →
      (step s (.provide lp tok)).promptCalls = s.promptCalls ++ [extractPrompt lp]) := by
  obtain ⟨cfg, pr, ldi, dt, nr, nt, ct, infl, log, cc, pc, lv⟩ := s
  by_cases hcfg : cfg = false
  · subst hcfg
    refine ⟨by simp [step], by simp [step], by simp [step], by simp [step],
      by simp [step], by simp [step], by simp [step], ?_⟩
    intro h _
    cases h
  · have hcfg' : cfg = true := by revert hcfg; cases cfg <;> simp
    subst hcfg'
    by_cases hcan : tok ∈ ct
    · refine ⟨by simp [step, hp, hcan], by simp [step, hp, hcan],
        by simp [step, hp, hcan], by simp [step, hp, hcan], by simp [step, hp, hcan],
        by simp [step, hp, hcan], by simp [step, hp, hcan], ?_⟩
      intro _ hnc
      exact absurd hcan hnc
    · refine ⟨by simp [step, hp, hcan], by simp [step, hp, hcan],
        by simp [step, hp, hcan], by simp [step, hp, hcan], by simp [step, hp, hcan],
        by simp [step, hp, hcan], by simp [step, hp, hcan], ?_⟩
      intro _ _
      simp [step, hp, hcan]

/-- Witness for C10: a prompt-trigger provide call at a concrete state. -/
theorem claim_C10_witness :
    isPromptBasedGeneration "// hi".data = true ∧
    (step initState (.provide "// hi".data 0)).pendingResolve =
      initState.pendingResolve ∧
    (step initState (.provide "// hi".data 0)).debounceTimer =
      initState.debounceTimer ∧
    (step initState (.provide "// hi".data 0)).promptCalls =
      initState.promptCalls ++ [extractPrompt "// hi".data] :=
  ⟨by decide,
   (claim_C10 initState "// hi".data 0 (by decide)).1,
   (claim_C10 initState "// hi".data 0 (by decide)).2.2.1,
   (claim_C10 initState "// hi".data 0 (by decide)).2.2.2.2.2.2.2 (by decide) (by decide)⟩

/-!
Claim C5 — cancellation before dispatch.
-/

/-- Claim C5, counterexample: when the cancellation token fires 10 ms after
the timer is armed (trace: one inline provide call, then the cancel event,
with the timer not yet expired), the coordinator does **not** resolve the
request immediately and does **not** clear the timer — the source installs
no cancellation listener, so after the cancel event the request is still
unresolved and the timer is still armed. -/
theorem claim_C5_counterexample :
    (runP initState [.provide "x".data 0, .cancel 0]).resolvedLog = [] ∧
    (runP initState [.provide "x".data 0, .cancel 0]).pendingResolve = some 0 ∧
    (runP initState [.provide "x".data 0, .cancel 0]).debounceTimer = some 0 := by
  decide

/-- Claim C5, amended: a cancellation that fires before dispatch takes
effect only when the debounce timer expires — `getCompletionWithDebounce`
then returns null synchronously, so the request is resolved with "no
suggestion" at the timer's expiry (not before), and the Suggestion Client
is never invoked for it. -/
theorem claim_C5 (s : PState) (t cur : Nat) (inp : DebInput)
    (ht : s.debounceTimer = some t) (hp : s.pendingResolve = some cur)
    (hi : s.lastDebounceInput = some inp) (hc : inp.tokId ∈ s.cancelledToks) :
    (step s (.fire t)).resolvedLog = s.resolvedLog ++ [(cur, none)] ∧
    (step s (.fire t)).clientCalls = s.clientCalls ∧
    (step s (.fire t)).inflight = s.inflight ∧
    (step s (.fire t)).debounceTimer = none ∧
    (step s (.fire t)).pendingResolve = none ∧
    (step s (.fire t)).lastDebounceInput = none := by
  obtain ⟨cfg, pr, ldi, dt, nr, nt, ct, infl, log, cc, pc, lv⟩ := s
  simp only at ht hp hi hc
  subst ht hp hi
  refine ⟨?_, ?_, ?_, ?_, ?_, ?_⟩ <;> simp [step, resolveWith, hc]

/-- Witness for the amended C5: the cancel-then-fire trace from the
counterexample state — the request resolves with null at the fire and the
client-call log stays empty. -/
theorem claim_C5_witness :
    (step (runP initState [.provide "x".data 0, .cancel 0]) (.fire 0)).resolvedLog =
      (runP initState [.provide "x".data 0, .cancel 0]).resolvedLog ++ [(0, none)] ∧
    (step (runP initState [.provide "x".data 0, .cancel 0]) (.fire 0)).clientCalls =
      (runP initState [.provide "x".data 0, .cancel 0]).clientCalls ∧
    (step (runP initState [.provide "x".data 0, .cancel 0]) (.fire 0)).debounceTimer =
      none :=
  ⟨(claim_C5 _ 0 0 ⟨0, 0⟩ (by decide) (by decide) (by decide) (by decide)).1,
   (claim_C5 _ 0 0 ⟨0, 0⟩ (by decide) (by decide) (by decide) (by decide)).2.1,
   (claim_C5 _ 0 0 ⟨0, 0⟩ (by decide) (by decide) (by decide) (by decide)).2.2.2.1⟩

/-!
Claim C1 — at-most-once delivery gated on pending identity.
-/

theorem InvN_init : InvN initState := by
  refine ⟨List.nodup_nil, ?_, ?_⟩ <;> simp [initState]

theorem nodup_concat_of {l : List Nat} {p : Nat} (h1 : l.Nodup) (h2 : p ∉ l) :
    (l ++ [p]).Nodup := by
  rw [List.nodup_append]
  exact ⟨h1, List.nodup_singleton p, fun a ha hb => by
    rw [List.mem_singleton] at hb; subst hb; exact h2 ha⟩

theorem cancel_eq (s : PState) (tok : Nat) :
    step s (.cancel tok) = { s with cancelledToks := tok :: s.cancelledToks } := rfl

theorem provide_block_eq (s : PState) (lp : Str) (tok : Nat) (h : s.cfgOk = false) :
    step s (.provide lp tok) = s := by
  obtain ⟨cfg, pr, ldi, dt, nr, nt, ct, infl, log, cc, pc, lv⟩ := s
  simp only at h
  subst h
  rfl

theorem provide_prompt_cancelled_eq (s : PState) (lp : Str) (tok : Nat)
    (hcfg : s.cfgOk = true) (hp : isPromptBasedGeneration lp = true)
    (hc : tok ∈ s.cancelledToks) :
    step s (.provide lp tok) = s := by
  obtain ⟨cfg, pr, ldi, dt, nr, nt, ct, infl, log, cc, pc, lv⟩ := s
  simp only at hcfg hc
  subst hcfg
  simp [step, hp, hc]

theorem provide_prompt_live_eq (s : PState) (lp : Str) (tok : Nat)
    (hcfg : s.cfgOk = true) (hp : isPromptBasedGeneration lp = true)
    (hc : tok ∉ s.cancelledToks) :
    step s (.provide lp tok) =
      { s with promptCalls := s.promptCalls ++ [extractPrompt lp] } := by
  obtain ⟨cfg, pr, ldi, dt, nr, nt, ct, infl, log, cc, pc, lv⟩ := s
  simp only at hcfg hc
  subst hcfg
  simp [step, hp, hc]

theorem fire_cancel_eq (s : PState) (t cur : Nat) (inp : DebInput)
    (ht : s.debounceTimer = some t) (hp : s.pendingResolve = some cur)
    (hi : s.lastDebounceInput = some inp) (hc : inp.tokId ∈ s.cancelledToks) :
    step s (.fire t) =
      { s with debounceTimer := none, pendingResolve := none
             , lastDebounceInput := none
             , resolvedLog := s.resolvedLog ++ [(cur, none)]
             , live := s.live.erase cur } := by
  obtain ⟨cfg, pr, ldi, dt, nr, nt, ct, infl, log, cc, pc, lv⟩ := s
  simp only at ht hp hi hc
  subst ht hp hi
  simp [step, resolveWith, hc]

theorem fire_skip_eq (s : PState) (t : Nat) (ht : s.debounceTimer = some t)
    (h : s.pendingResolve = none ∨ s.lastDebounceInput = none) :
    step s (.fire t) = { s with debounceTimer := none } := by
  obtain ⟨cfg, pr, ldi, dt, nr, nt, ct, infl, log, cc, pc, lv⟩ := s
  simp only at ht h
  subst ht
  rcases h with h | h
  · subst h; cases ldi <;> simp [step]
  · subst h; cases pr <;> simp [step]

theorem complete_deliver_eq (s : PState) (r : Nat) (v : Option Nat)
    (hin : r ∈ s.inflight) (hp : s.pendingResolve = some r) :
    step s (.complete r v) =
      { s with inflight := s.inflight.erase r
             , pendingResolve := none, lastDebounceInput := none
             , resolvedLog := s.resolvedLog ++ [(r, v)]
             , live := s.live.erase r } := by
  obtain ⟨cfg, pr, ldi, dt, nr, nt, ct, infl, log, cc, pc, lv⟩ := s
  simp only at hin hp
  subst hp
  simp [step, resolveWith, hin]

theorem complete_stale_eq (s : PState) (r : Nat) (v : Option Nat)
    (hin : r ∈ s.inflight) (hp : ¬ s.pendingResolve = some r) :
    step s (.complete r v) = { s with inflight := s.inflight.erase r } := by
  obtain ⟨cfg, pr, ldi, dt, nr, nt, ct, infl, log, cc, pc, lv⟩ := s
  simp only at hin hp
  simp [step, hin, hp]

theorem complete_miss_eq (s : PState) (r : Nat) (v : Option Nat)
    (hin : r ∉ s.inflight) :
    step s (.complete r v) = s := by
  obtain ⟨cfg, pr, ldi, dt, nr, nt, ct, infl, log, cc, pc, lv⟩ := s
  simp only at hin
  simp [step, hin]

theorem resolved_ids_concat (log : List (Nat × Option Nat)) (p : Nat) (v : Option Nat) :
    (log ++ [(p, v)]).map Prod.fst = log.map Prod.fst ++ [p] := by simp

theorem InvN_concat {log : List (Nat × Option Nat)} {n p : Nat} {v : Option Nat}
    (h1 : (log.map Prod.fst).Nodup) (h2 : ∀ i ∈ log.map Prod.fst, i < n)
    (hp1 : p ∉ log.map Prod.fst) (hp2 : p < n) :
    ((log ++ [(p, v)]).map Prod.fst).Nodup ∧
      ∀ i ∈ (log ++ [(p, v)]).map Prod.fst, i < n := by
  rw [resolved_ids_concat]
  refine ⟨nodup_concat_of h1 hp1, ?_⟩
  intro i hi
  rcases List.mem_append.mp hi with hi1 | hi2
  · exact h2 i hi1
  · rw [List.mem_singleton] at hi2; omega

theorem InvN_step (s : PState) (e : Ev) (h : InvN s) : InvN (step s e) := by
  obtain ⟨h1, h2, h3⟩ := h
  cases e with
  | cancel tok =>
    rw [cancel_eq]
    exact ⟨h1, h2, h3⟩
  | provide lp tok =>
    by_cases hcfg : s.cfgOk = false
    · rw [provide_block_eq s lp tok hcfg]; exact ⟨h1, h2, h3⟩
    · have hcfg' : s.cfgOk = true := by
        revert hcfg; cases s.cfgOk <;> simp
      by_cases hpb : isPromptBasedGeneration lp = true
      · by_cases hcan : tok ∈ s.cancelledToks
        · rw [provide_prompt_cancelled_eq s lp tok hcfg' hpb hcan]
          exact ⟨h1, h2, h3⟩
        · rw [provide_prompt_live_eq s lp tok hcfg' hpb hcan]
          exact ⟨h1, h2, h3⟩
      · have hpb' : isPromptBasedGeneration lp = false := Bool.eq_false_iff.mpr hpb
        rw [provide_step s lp tok hcfg' hpb']
        cases hpr : s.pendingResolve with
        | none =>
          refine ⟨?_, ?_, ?_⟩
          · show ((s.resolvedLog ++ []).map Prod.fst).Nodup
            rw [List.append_nil]
            exact h1
          · show ∀ i ∈ (s.resolvedLog ++ []).map Prod.fst, i < s.nextReqId + 1
            rw [List.append_nil]
            exact fun i hi => Nat.lt_succ_of_lt (h2 i hi)
          · show ∀ q, some s.nextReqId = some q →
              q ∉ (s.resolvedLog ++ []).map Prod.fst ∧ q < s.nextReqId + 1
            rw [List.append_nil]
            intro q hq
            injection hq with hq
            subst hq
            refine ⟨fun hmem => ?_, by omega⟩
            exact absurd (h2 _ hmem) (by omega)
        | some p =>
          obtain ⟨hp1, hp2⟩ := h3 p hpr
          obtain ⟨hn1, hn2⟩ := InvN_concat (v := none) h1 h2 hp1 hp2
          refine ⟨?_, ?_, ?_⟩
          · exact hn1
          · show ∀ i ∈ (s.resolvedLog ++ [(p, none)]).map Prod.fst, i < s.nextReqId + 1
            exact fun i hi => Nat.lt_succ_of_lt (hn2 i hi)
          · show ∀ q, some s.nextReqId = some q →
              q ∉ (s.resolvedLog ++ [(p, none)]).map Prod.fst ∧ q < s.nextReqId + 1
            intro q hq
            injection hq with hq
            subst hq
            refine ⟨fun hmem => ?_, by omega⟩
            exact absurd (hn2 _ hmem) (by omega)
  | fire t =>
    by_cases hdt : s.debounceTimer = some t
    · cases hpr : s.pendingResolve with
      | none =>
        rw [fire_skip_eq s t hdt (Or.inl hpr)]
        exact ⟨h1, h2, fun p hp => h3 p hp⟩
      | some cur =>
        cases hldi : s.lastDebounceInput with
        | none =>
          rw [fire_skip_eq s t hdt (Or.inr hldi)]
          exact ⟨h1, h2, fun p hp => h3 p hp⟩
        | some inp =>
          obtain ⟨hp1, hp2⟩ := h3 cur hpr
          by_cases hcan : inp.tokId ∈ s.cancelledToks
          · rw [fire_cancel_eq s t cur inp hdt hpr hldi hcan]
            obtain ⟨hn1, hn2⟩ := InvN_concat (v := none) h1 h2 hp1 hp2
            exact ⟨hn1, hn2, fun p hp => by cases hp⟩
          · rw [fire_dispatch s t cur inp hdt hpr hldi hcan]
            exact ⟨h1, h2, fun p hp => h3 p hp⟩
    · rw [fire_stale s t hdt]
      exact ⟨h1, h2, h3⟩
  | complete r v =>
    by_cases hin : r ∈ s.inflight
    · by_cases hpr : s.pendingResolve = some r
      · rw [complete_deliver_eq s r v hin hpr]
        obtain ⟨hp1, hp2⟩ := h3 r hpr
        obtain ⟨hn1, hn2⟩ := InvN_concat (v := v) h1 h2 hp1 hp2
        exact ⟨hn1, hn2, fun p hp => by cases hp⟩
      · rw [complete_stale_eq s r v hin hpr]
        exact ⟨h1, h2, fun p hp => h3 p hp⟩
    · rw [complete_miss_eq s r v hin]
      exact ⟨h1, h2, h3⟩

theorem InvN_run : ∀ (evs : List Ev) (s : PState), InvN s → InvN (runP s evs) := by
  intro evs
  induction evs with
  | nil => intro s h; exact h
  | cons e evs' ih =>
    intro s h
    exact ih (step s e) (InvN_step s e h)

/-- Claim C1: a completed client call is delivered only when its captured
identity still equals the current pending resolve — a stale completion
changes neither the resolution log nor the set of live promises; a
matching completion is delivered to its own request with its own payload;
a superseding provide call resolves the previous pending request with
null; and over any event sequence no request id is ever resolved twice. -/
theorem claim_C1 :
    (∀ (s : PState) (r : Nat) (v : Option Nat), s.pendingResolve ≠ some r →
      (step s (.complete r v)).resolvedLog = s.resolvedLog ∧
      (step s (.complete r v)).live = s.live) ∧
    (∀ (s : PState) (r : Nat) (v : Option Nat), r ∈ s.inflight →
      s.pendingResolve = some r →
      (step s (.complete r v)).resolvedLog = s.resolvedLog ++ [(r, v)]) ∧
    (∀ (s : PState) (lp : Str) (tok p : Nat), s.cfgOk = true →
      isPromptBasedGeneration lp = false → s.pendingResolve = some p →
      (step s (.provide lp tok)).resolvedLog = s.resolvedLog ++ [(p, none)]) ∧
    (∀ evs : List Ev, ((runP initState evs).resolvedLog.map Prod.fst).Nodup) := by
  refine ⟨?_, ?_, ?_, ?_⟩
  · intro s r v hne
    by_cases hin : r ∈ s.inflight
    · rw [complete_stale_eq s r v hin hne]
      exact ⟨rfl, rfl⟩
    · rw [complete_miss_eq s r v hin]
      exact ⟨rfl, rfl⟩
  · intro s r v hin hp
    rw [complete_deliver_eq s r v hin hp]
  · intro s lp tok p hcfg hlp hp
    rw [provide_step s lp tok hcfg hlp]
    show s.resolvedLog ++ (match s.pendingResolve with
      | some q => [(q, (none : Option Nat))]
      | none => []) = s.resolvedLog ++ [(p, none)]
    rw [hp]
  · intro evs
    exact (InvN_run evs initState InvN_init).1

/-- Witness for C1: a stale completion after supersession is discarded, a
current completion is delivered, a superseding provide resolves the old
request with null, and a full trace yields a duplicate-free log. -/
theorem claim_C1_witness :
    ((step (runP initState [.provide "x".data 0, .fire 0, .provide "x".data 1])
        (.complete 0 (some 7))).resolvedLog =
      (runP initState [.provide "x".data 0, .fire 0, .provide "x".data 1]).resolvedLog ∧
     (step (runP initState [.provide "x".data 0, .fire 0, .provide "x".data 1])
        (.complete 0 (some 7))).live =
      (runP initState [.provide "x".data 0, .fire 0, .provide "x".data 1]).live) ∧
    (step (runP initState [.provide "x".data 0, .fire 0])
        (.complete 0 (some 7))).resolvedLog =
      (runP initState [.provide "x".data 0, .fire 0]).resolvedLog ++ [(0, some 7)] ∧
    (step (runP initState [.provide "x".data 0]) (.provide "x".data 1)).resolvedLog =
      (runP initState [.provide "x".data 0]).resolvedLog ++ [(0, none)] ∧
    ((runP initState [.provide "x".data 0, .fire 0, .provide "x".data 1,
        .complete 0 (some 7), .fire 1]).resolvedLog.map Prod.fst).Nodup :=
  ⟨claim_C1.1 (runP initState [.provide "x".data 0, .fire 0, .provide "x".data 1])
      0 (some 7) (by decide),
   claim_C1.2.1 (runP initState [.provide "x".data 0, .fire 0]) 0 (some 7)
      (by decide) (by decide),
   claim_C1.2.2.1 (runP initState [.provide "x".data 0]) "x".data 1 0
      (by decide) (by decide) (by decide),
   claim_C1.2.2.2 [.provide "x".data 0, .fire 0, .provide "x".data 1,
      .complete 0 (some 7), .fire 1]⟩

/-!
Claim C2 — a burst of rapid requests: supersession, the single live
pending resolution, and dispatch of only the last request.
-/

theorem InvL_init : InvL initState := rfl

theorem InvL_step (s : PState) (e : Ev) (h : InvL s) : InvL (step s e) := by
  unfold InvL at h
  cases e with
  | cancel tok =>
    rw [cancel_eq]
    exact h
  | provide lp tok =>
    by_cases hcfg : s.cfgOk = false
    · rw [provide_block_eq s lp tok hcfg]; exact h
    · have hcfg' : s.cfgOk = true := by revert hcfg; cases s.cfgOk <;> simp
      by_cases hpb : isPromptBasedGeneration lp = true
      · by_cases hcan : tok ∈ s.cancelledToks
        · rw [provide_prompt_cancelled_eq s lp tok hcfg' hpb hcan]; exact h
        · rw [provide_prompt_live_eq s lp tok hcfg' hpb hcan]; exact h
      · have hpb' : isPromptBasedGeneration lp = false := Bool.eq_false_iff.mpr hpb
        rw [provide_step s lp tok hcfg' hpb']
        cases hpr : s.pendingResolve with
        | none =>
          show s.live ++ [s.nextReqId] = [s.nextReqId]
          rw [hpr] at h
          rw [h]
          rfl
        | some p =>
          show s.live.erase p ++ [s.nextReqId] = [s.nextReqId]
          rw [hpr] at h
          rw [h]
          simp [Option.toList]
  | fire t =>
    by_cases hdt : s.debounceTimer = some t
    · cases hpr : s.pendingResolve with
      | none =>
        rw [fire_skip_eq s t hdt (Or.inl hpr)]
        exact h
      | some cur =>
        cases hldi : s.lastDebounceInput with
        | none =>
          rw [fire_skip_eq s t hdt (Or.inr hldi)]
          exact h
        | some inp =>
          by_cases hcan : inp.tokId ∈ s.cancelledToks
          · rw [fire_cancel_eq s t cur inp hdt hpr hldi hcan]
            show s.live.erase cur = []
            rw [hpr] at h
            rw [h]
            simp [Option.toList]
          · rw [fire_dispatch s t cur inp hdt hpr hldi hcan]
            exact h
    · rw [fire_stale s t hdt]
      exact h
  | complete r v =>
    by_cases hin : r ∈ s.inflight
    · by_cases hpr : s.pendingResolve = some r
      · rw [complete_deliver_eq s r v hin hpr]
        show s.live.erase r = []
        rw [hpr] at h
        rw [h]
        simp [Option.toList]
      · rw [complete_stale_eq s r v hin hpr]
        exact h
    · rw [complete_miss_eq s r v hin]
      exact h

theorem InvL_run : ∀ (evs : List Ev) (s : PState), InvL s → InvL (runP s evs) := by
  intro evs
  induction evs with
  | nil => intro s h; exact h
  | cons e evs' ih => intro s h; exact ih (step s e) (InvL_step s e h)

theorem provide_run (lp : Str) (hlp : isPromptBasedGeneration lp = false) :
    ∀ (toks : List Nat) (s : PState), s.cfgOk = true →
      (runP s (provides lp toks)).cfgOk = true ∧
      (runP s (provides lp toks)).cancelledToks = s.cancelledToks ∧
      (runP s (provides lp toks)).clientCalls = s.clientCalls ∧
      (runP s (provides lp toks)).inflight = s.inflight ∧
      (runP s (provides lp toks)).nextReqId = s.nextReqId + toks.length ∧
      (runP s (provides lp toks)).nextTimerId = s.nextTimerId + toks.length ∧
      (toks ≠ [] →
        (runP s (provides lp toks)).pendingResolve =
          some (s.nextReqId + toks.length - 1) ∧
        (runP s (provides lp toks)).debounceTimer =
          some (s.nextTimerId + toks.length - 1) ∧
        (∃ tk, (runP s (provides lp toks)).lastDebounceInput =
          some ⟨s.nextReqId + toks.length - 1, tk⟩) ∧
        (runP s (provides lp toks)).resolvedLog =
          s.resolvedLog ++
            (match s.pendingResolve with
             | some p => [(p, (none : Option Nat))]
             | none => []) ++
            (List.range (toks.length - 1)).map
              (fun k => (s.nextReqId + k, (none : Option Nat)))) := by
  intro toks
  induction toks with
  | nil =>
    intro s hcfg
    refine ⟨hcfg, rfl, rfl, rfl, by simp [provides, runP], by simp [provides, runP], ?_⟩
    intro hne
    exact absurd rfl hne
  | cons t toks' ih =>
    intro s hcfg
    have hrun : runP s (provides lp (t :: toks')) =
        runP (step s (.provide lp t)) (provides lp toks') := by
      simp [provides, runP]
    have heqA := provide_step s lp t hcfg hlp
    have hAcfg : (step s (.provide lp t)).cfgOk = true := by rw [heqA]; exact hcfg
    obtain ⟨ih1, ih2, ih3, ih4, ih5, ih6, ih7⟩ := ih (step s (.provide lp t)) hAcfg
    have hAreq : (step s (.provide lp t)).nextReqId = s.nextReqId + 1 := by rw [heqA]
    have hAtim : (step s (.provide lp t)).nextTimerId = s.nextTimerId + 1 := by rw [heqA]
    have hAcan : (step s (.provide lp t)).cancelledToks = s.cancelledToks := by rw [heqA]
    have hAcc : (step s (.provide lp t)).clientCalls = s.clientCalls := by rw [heqA]
    have hAinf : (step s (.provide lp t)).inflight = s.inflight := by rw [heqA]
    have hApr : (step s (.provide lp t)).pendingResolve = some s.nextReqId := by rw [heqA]
    have hAdt : (step s (.provide lp t)).debounceTimer = some s.nextTimerId := by rw [heqA]
    have hAldi : (step s (.provide lp t)).lastDebounceInput =
        some ⟨s.nextReqId, t⟩ := by rw [heqA]
    have hAlog : (step s (.provide lp t)).resolvedLog =
        s.resolvedLog ++
          (match s.pendingResolve with
           | some p => [(p, (none : Option Nat))]
           | none => []) := by rw [heqA]
    rw [hrun]
    refine ⟨ih1, ih2.trans hAcan, ih3.trans hAcc, ih4.trans hAinf, ?_, ?_, ?_⟩
    · rw [ih5, hAreq]
      simp [List.length_cons]
      omega
    · rw [ih6, hAtim]
      simp [List.length_cons]
      omega
    · intro _
      cases htn : toks' with
      | nil =>
        subst htn
        have hid : runP (step s (.provide lp t)) (provides lp []) =
            step s (.provide lp t) := rfl
        rw [hid]
        refine ⟨by rw [hApr]; simp, by rw [hAdt]; simp, ⟨t, by rw [hAldi]; simp⟩, ?_⟩
        rw [hAlog]
        simp
      | cons t2 rest =>
        have hne2 : toks' ≠ [] := by rw [htn]; simp
        rw [← htn]
        obtain ⟨ihp, ihd, ⟨tk, ihl⟩, ihlog⟩ := ih7 hne2
        have hlen : toks'.length ≥ 1 := by
          rw [htn]; simp
        have harith1 : (step s (.provide lp t)).nextReqId + toks'.length - 1 =
            s.nextReqId + (t :: toks').length - 1 := by
          rw [hAreq]; simp only [List.length_cons]; omega
        have harith2 : (step s (.provide lp t)).nextTimerId + toks'.length - 1 =
            s.nextTimerId + (t :: toks').length - 1 := by
          rw [hAtim]; simp only [List.length_cons]; omega
        refine ⟨by rw [ihp, harith1], by rw [ihd, harith2],
          ⟨tk, by rw [ihl, harith1]⟩, ?_⟩
        rw [ihlog, hAlog, hApr, hAreq]
        have hrange : (List.range ((t :: toks').length - 1)).map
            (fun k => (s.nextReqId + k, (none : Option Nat))) =
            (s.nextReqId, (none : Option Nat)) ::
              (List.range (toks'.length - 1)).map
                (fun k => (s.nextReqId + 1 + k, (none : Option Nat))) := by
          have hl : (t :: toks').length - 1 = (toks'.length - 1) + 1 := by
            simp only [List.length_cons]; omega
          have hfun : ((fun k => (s.nextReqId + k, (none : Option Nat))) ∘ Nat.succ) =
              (fun k => (s.nextReqId + 1 + k, (none : Option Nat))) := by
            funext k
            have h9 : s.nextReqId + (k + 1) = s.nextReqId + 1 + k := by omega
            simp [Function.comp, Nat.succ_eq_add_one, h9]
          rw [hl, List.range_succ_eq_map, List.map_cons, List.map_map, hfun]
          simp
        rw [hrange]
        simp only [List.append_assoc, List.singleton_append]

/-- Claim C2: for any burst of inline requests handled as one debounce
window (no timer fires in between), every call except the last resolves
the previous pending call with null (the resolution log lists exactly the
first N-1 request ids, each with "no suggestion"), the last request is the
sole pending one with the sole armed timer, nothing has been dispatched,
firing the last timer dispatches exactly the last request (and stale timer
ids are no-ops), none of the earlier requests is ever dispatched, and over
any event sequence the live (unresolved) promises are exactly the current
pending one — at most one per provider instance. -/
theorem claim_C2 (lp : Str) (toks : List Nat)
    (hlp : isPromptBasedGeneration lp = false) (hne : toks ≠ []) :
    (runP initState (provides lp toks)).resolvedLog =
      (List.range (toks.length - 1)).map (fun k => (k, (none : Option Nat))) ∧
    (runP initState (provides lp toks)).pendingResolve = some (toks.length - 1) ∧
    (runP initState (provides lp toks)).debounceTimer = some (toks.length - 1) ∧
    (runP initState (provides lp toks)).clientCalls = [] ∧
    (step (runP initState (provides lp toks)) (.fire (toks.length - 1))).clientCalls =
      [toks.length - 1] ∧
    (step (runP initState (provides lp toks)) (.fire (toks.length - 1))).resolvedLog =
      (runP initState (provides lp toks)).resolvedLog ∧
    (∀ t2, ¬ t2 = toks.length - 1 →
      step (runP initState (provides lp toks)) (.fire t2) =
        runP initState (provides lp toks)) ∧
    (∀ k, k < toks.length - 1 →
      k ∉ (step (runP initState (provides lp toks))
        (.fire (toks.length - 1))).clientCalls) ∧
    (∀ evs : List Ev,
      (runP initState evs).live = (runP initState evs).pendingResolve.toList) := by
  obtain ⟨h1, h2, h3, h4, h5, h6, h7⟩ := provide_run lp hlp toks initState rfl
  obtain ⟨hp, hd, ⟨tk, hl⟩, hlog⟩ := h7 hne
  have e0 : initState.nextReqId = 0 := rfl
  have e1 : initState.nextTimerId = 0 := rfl
  have ezero : ∀ n : Nat, 0 + n - 1 = n - 1 := fun n => by omega
  rw [e0, ezero] at hp hl
  rw [e1, ezero] at hd
  have hlog' : (runP initState (provides lp toks)).resolvedLog =
      (List.range (toks.length - 1)).map (fun k => (k, (none : Option Nat))) := by
    rw [hlog]
    show ([] : List (Nat × Option Nat)) ++ [] ++
        (List.range (toks.length - 1)).map (fun k => (0 + k, (none : Option Nat))) = _
    simp
  have hcan : (runP initState (provides lp toks)).cancelledToks = [] := h2
  have hcc : (runP initState (provides lp toks)).clientCalls = [] := h3
  have hfire := fire_dispatch (runP initState (provides lp toks))
    (toks.length - 1) (toks.length - 1) ⟨toks.length - 1, tk⟩ hd hp hl
    (by rw [hcan]; simp)
  refine ⟨hlog', hp, hd, hcc, ?_, ?_, ?_, ?_, ?_⟩
  · rw [hfire]
    show (runP initState (provides lp toks)).clientCalls ++ [toks.length - 1] = _
    rw [hcc]
    rfl
  · rw [hfire]
  · intro t2 hneq
    apply fire_stale
    rw [hd]
    intro hcc2
    injection hcc2 with hcc2
    exact hneq hcc2.symm
  · intro k hk
    rw [hfire]
    show k ∉ (runP initState (provides lp toks)).clientCalls ++ [toks.length - 1]
    rw [hcc]
    simp
    omega
  · intro evs
    exact InvL_run evs initState InvL_init

/-- Witness for C2 with a burst of three requests. -/
theorem claim_C2_witness :
    (runP initState (provides "x".data [5, 6, 7])).resolvedLog =
      (List.range (([5, 6, 7] : List Nat).length - 1)).map
        (fun k => (k, (none : Option Nat))) ∧
    (runP initState (provides "x".data [5, 6, 7])).pendingResolve =
      some (([5, 6, 7] : List Nat).length - 1) ∧
    (step (runP initState (provides "x".data [5, 6, 7]))
      (.fire (([5, 6, 7] : List Nat).length - 1))).clientCalls =
      [([5, 6, 7] : List Nat).length - 1] := by
  have h := claim_C2 "x".data [5, 6, 7] (by decide) (by decide)
  exact ⟨h.1, h.2.1, h.2.2.2.2.1⟩
